import Mathlib

set_option maxHeartbeats 1000000

/-!
Verification development for the event-driven card-game rules engine
(`hsgame/game_objects.py`).  The Python source is shallowly embedded:
pure fragments become Lean functions, stateful methods become explicit
state-passing functions, dynamically bound event handlers become
function-valued parameters (an "environment") acting on the game data,
and a ghost trace field records which events fire and which hits land,
in source order.  Exceptions become `Except`/`Option` error values.
-/

deriving instance DecidableEq for Except

/-! ### Deck (`Deck.__init__`, `can_draw`, `draw`, `put_back`) -/

/-- Errors raised by deck operations (`GameException` messages in the source,
plus the `IndexError` Python would raise if the draw walk ran off the array). -/
inductive DeckErr
  | cannotDraw
  | indexError
  | putBackUnused
  | putBackForeign
deriving DecidableEq, Repr

/-- State of `Deck`: the fixed card array (cards as identifiers), the parallel
`used` flags, and the `left` counter.  Mirrors `Deck.__init__`. -/
structure Deck where
  cards : List Nat
  used : List Bool
  left : Nat
deriving DecidableEq, Repr

/-- A fresh deck: `used = [False] * 30`, `left = 30`. -/
def Deck.fresh (cards : List Nat) : Deck :=
  ⟨cards, List.replicate 30 false, 30⟩

/-- `Deck.can_draw`: `self.left > 0`. -/
def Deck.canDraw (d : Deck) : Bool :=
  decide (0 < d.left)

/-- The `while count <= index` walk inside `Deck.draw`: returns the position of
the `(k+1)`-th slot whose `used` flag is `false`, or `none` when the walk runs
past the end of the array (Python would raise `IndexError`). -/
def drawWalk : List Bool → Nat → Option Nat
  | [], _ => none
  | b :: rest, k =>
    if b then (drawWalk rest k).map (· + 1)
    else if k = 0 then some 0
    else (drawWalk rest (k - 1)).map (· + 1)

/-- `Deck.draw`, with the value returned by `random_func(0, self.left - 1)`
passed in as `index`.  Raises when `can_draw` is false; otherwise walks to the
`(index+1)`-th unused slot, marks it used, decrements `left` and returns the
card stored there. -/
def Deck.draw (d : Deck) (index : Nat) : Except DeckErr (Nat × Deck) :=
  if ¬ d.canDraw then .error .cannotDraw
  else
    match drawWalk d.used index with
    | none => .error .indexError
    | some i => .ok (d.cards.getD i 0, ⟨d.cards, d.used.set i true, d.left - 1⟩)

/-- The `for index in range(0, 30)` scan of `Deck.put_back`, recursing over the
card array and the used flags in parallel: at the first slot holding `card`,
fail if that slot is unused, otherwise clear its flag; failing at the end of
the array when no slot holds `card`. -/
def putBackScan : List Nat → List Bool → Nat → Except DeckErr (List Bool)
  | [], _, _ => .error .putBackForeign
  | _ :: _, [], _ => .error .putBackForeign
  | c :: cs, u :: us, card =>
    if c = card then
      if u = false then .error .putBackUnused
      else .ok (false :: us)
    else (putBackScan cs us card).map (u :: ·)

/-- `Deck.put_back`: on a successful scan, install the cleared flag array and
increment `left`. -/
def Deck.putBack (d : Deck) (card : Nat) : Except DeckErr Deck :=
  match putBackScan d.cards d.used card with
  | .ok used2 => .ok ⟨d.cards, used2, d.left + 1⟩
  | .error e => .error e

/-- External operations on a deck, for quantifying over call sequences.
`draw` carries the index the random source produced. -/
inductive DeckOp
  | draw (index : Nat)
  | putBack (card : Nat)
deriving DecidableEq, Repr

/-- One operation applied to a deck.  A raised exception leaves the deck
unchanged (both `draw` and `put_back` raise before any mutation). -/
def Deck.step (op : DeckOp) (d : Deck) : Deck :=
  match op with
  | .draw i =>
    match d.draw i with
    | .ok (_, d2) => d2
    | .error _ => d
  | .putBack c =>
    match d.putBack c with
    | .ok d2 => d2
    | .error _ => d

/-- Run a sequence of deck operations. -/
def Deck.run (ops : List DeckOp) (d : Deck) : Deck :=
  ops.foldl (fun d op => Deck.step op d) d

/-- The spec's wording for `put_back` ("locates the first slot holding an
identical card **that is marked used**"), written from the spec for comparison
with `Deck.putBack` which was translated from the source. -/
def putBackClaimScan : List Nat → List Bool → Nat → Except DeckErr (List Bool)
  | [], _, _ => .error .putBackForeign
  | _ :: _, [], _ => .error .putBackForeign
  | c :: cs, u :: us, card =>
    if c = card ∧ u = true then .ok (false :: us)
    else
      match putBackClaimScan cs us card with
      | .ok us2 => .ok (u :: us2)
      | .error .putBackForeign =>
        if c = card then .error .putBackUnused else .error .putBackForeign
      | .error e => .error e

/-- The spec's wording for `Deck.put_back` as a whole deck operation. -/
def Deck.putBackClaim (d : Deck) (card : Nat) : Except DeckErr Deck :=
  match putBackClaimScan d.cards d.used card with
  | .ok used2 => .ok ⟨d.cards, used2, d.left + 1⟩
  | .error e => .error e

/-! ### Bindable (`bind`, `bind_once`, `trigger`, `unbind`)

Handler objects carry the Python object identity (`uid`, fresh per
registration — `list.remove` and the one-shot removal compare by identity),
the function identity (`fid`, what `unbind` compares), the one-shot flag
(`remove`) and the re-entrancy guard (`active`).  The handler bodies
themselves do not touch the registry (the claims quantify over external
call sequences); an invocation is recorded by appending the handler's `uid`
to a ghost log. -/

structure Handler where
  uid : Nat
  fid : Nat
  remove : Bool
  active : Bool
deriving DecidableEq, Repr

/-- Registry state of one `Bindable`: the `events` dict as an association
list, a counter for fresh handler identities, the ghost set of identities
created by `bind_once`, and the ghost invocation log. -/
structure BState where
  events : List (Nat × List Handler)
  nextUid : Nat
  oneShots : List Nat
  log : List Nat
deriving DecidableEq, Repr

/-- Dictionary lookup `self.events[event]` (with the `event in self.events`
test folded in as `none`). -/
def lookupEv (es : List (Nat × List Handler)) (ev : Nat) : Option (List Handler) :=
  (es.find? (fun p => p.1 = ev)).map (fun p => p.2)

/-- Dictionary update `self.events[event] = hs` (inserting the key if
absent, as `bind` does). -/
def setEv : List (Nat × List Handler) → Nat → List Handler → List (Nat × List Handler)
  | [], ev, hs => [(ev, hs)]
  | (e, l) :: rest, ev, hs =>
    if e = ev then (e, hs) :: rest else (e, l) :: setEv rest ev hs

/-- Dictionary deletion `del self.events[event]`. -/
def delEv (es : List (Nat × List Handler)) (ev : Nat) : List (Nat × List Handler) :=
  es.filter (fun p => ¬ p.1 = ev)

/-- `Bindable.bind`: append a fresh persistent handler to the event's list. -/
def BState.bindEv (st : BState) (ev fid : Nat) : BState :=
  let h : Handler := ⟨st.nextUid, fid, false, false⟩
  { st with
    events := setEv st.events ev ((lookupEv st.events ev).getD [] ++ [h])
    nextUid := st.nextUid + 1 }

/-- `Bindable.bind_once`: append a fresh one-shot handler (`remove = True`). -/
def BState.bindOnceEv (st : BState) (ev fid : Nat) : BState :=
  let h : Handler := ⟨st.nextUid, fid, true, false⟩
  { st with
    events := setEv st.events ev ((lookupEv st.events ev).getD [] ++ [h])
    nextUid := st.nextUid + 1
    oneShots := st.oneShots ++ [st.nextUid] }

/-- The loop body of `Bindable.trigger` over the copied handler list: a
handler whose `active` flag is set is skipped and kept; otherwise it is
invoked (its `uid` logged) and removed from the live list exactly when its
one-shot flag is set. -/
def runHandlers : List Handler → List Handler × List Nat
  | [] => ([], [])
  | h :: rest =>
    let p := runHandlers rest
    if h.active then (h :: p.1, p.2)
    else if h.remove then (p.1, h.uid :: p.2)
    else (h :: p.1, h.uid :: p.2)

/-- `Bindable.trigger`: run the handlers registered for `ev`, record the
invocations, and tidy the dict entry away when it empties. -/
def BState.triggerEv (st : BState) (ev : Nat) : BState :=
  match lookupEv st.events ev with
  | none => st
  | some hs =>
    let p := runHandlers hs
    { st with
      events := if p.1.isEmpty then delEv st.events ev else setEv st.events ev p.1
      log := st.log ++ p.2 }

/-- `Bindable.unbind`: drop every handler whose function identity matches,
tidying the dict entry away when it empties. -/
def BState.unbindEv (st : BState) (ev fid : Nat) : BState :=
  match lookupEv st.events ev with
  | none => st
  | some hs =>
    let ks := hs.filter (fun h => ¬ h.fid = fid)
    { st with events := if ks.isEmpty then delEv st.events ev else setEv st.events ev ks }

/-- Whether some registered handler carries identity `uid`. -/
def BState.inRegistry (st : BState) (uid : Nat) : Bool :=
  st.events.any (fun p => p.2.any (fun h => h.uid = uid))

/-- External calls on a `Bindable`. -/
inductive BOp
  | bindOp (ev fid : Nat)
  | bindOnceOp (ev fid : Nat)
  | triggerOp (ev : Nat)
  | unbindOp (ev fid : Nat)
deriving DecidableEq, Repr

/-- One external call. -/
def BState.stepB (st : BState) (op : BOp) : BState :=
  match op with
  | .bindOp ev fid => st.bindEv ev fid
  | .bindOnceOp ev fid => st.bindOnceEv ev fid
  | .triggerOp ev => st.triggerEv ev
  | .unbindOp ev fid => st.unbindEv ev fid

/-- Run a sequence of external calls. -/
def BState.runB (st : BState) (ops : List BOp) : BState :=
  ops.foldl BState.stepB st

/-- The empty `Bindable` (`self.events = {}`). -/
def BState.init : BState :=
  ⟨[], 0, [], []⟩

/-! ### Characters, minions and combat
(`Character.attack`, `Character.damage`, `Minion.damage`, `Minion.die`,
`Minion.silence`, `Character.activate_delayed`, `Hero.damage`)

One state covers the attacking minion, the opposing board and the opposing
hero.  Event handlers bound by card effects are abstracted as an
environment: one function per `trigger` call, acting on the game data (not
on the ghost trace).  `delayed_trigger` appends to the character's pending
list without consulting the environment, exactly as in the source. -/

/-- Event names that occur in the embedded fragment.  `deathrattleMark` is
not a real event: it marks the invocation of the captured deathrattle
closure, whose effect the environment supplies. -/
inductive EvtName
  | attacking | attackMinion | attackPlayer | attacked
  | physicallyDamaged | minionDamaged | secretDamaged
  | damaged | didDamage | died | silenced
  | minionDied | minionRemoved | deathrattleMark
deriving DecidableEq, Repr

/-- A delayed event entry (`self.delayed.append({'event': ..., 'args': ...})`),
with the numeric argument retained. -/
structure DEvt where
  name : EvtName
  amount : Int
deriving DecidableEq, Repr

/-- Combined character state: the `Character` fields plus the `Minion`
extras and the `Hero` armour.  `isHero` records the dynamic type used by
`type(...)`/`isinstance` dispatch.  `hasDeathrattle` stands for
`deathrattle is not None`, `silenceOnDied` for the one-shot
`bind_once("died", ...)` handler installed by `Minion.die`, and `onBoard`
for membership in the owner's minion list. -/
structure ChState where
  isHero : Bool
  attackPower : Int
  tempAttack : Int
  health : Int
  maxHealth : Int
  armour : Int
  active : Bool
  dead : Bool
  windFury : Bool
  usedWindFury : Bool
  frozen : Bool
  frozenThisTurn : Bool
  immune : Bool
  stealth : Bool
  taunt : Bool
  charge : Bool
  divineShield : Bool
  hasDeathrattle : Bool
  silenceOnDied : Bool
  onBoard : Bool
  delayed : List DEvt
deriving DecidableEq, Repr

/-- A reference to a character in the combat state: the attacker, the i-th
opposing minion, or the opposing hero.  References play the role of Python
object identity. -/
inductive SRef
  | attRef
  | enemyRef (i : Nat)
  | heroRef
deriving DecidableEq, Repr

/-- Whether the referenced character is a `Minion` (`isinstance(target, Minion)`
and `type(attacker) is Minion` both dispatch on this). -/
def SRef.isMinionRef : SRef → Bool
  | .heroRef => false
  | _ => true

/-- The mutable game data of the combat fragment. -/
structure UData where
  att : ChState
  enemies : List ChState
  hero : ChState
deriving DecidableEq, Repr

/-- Placeholder character for out-of-range enemy indices (never reached on
the paths the theorems take). -/
def defaultCh : ChState :=
  ⟨false, 0, 0, 0, 0, 0, false, false, false, false, false, false, false,
   false, false, false, false, false, false, false, []⟩

/-- Read the character behind a reference. -/
def UData.get (d : UData) : SRef → ChState
  | .attRef => d.att
  | .enemyRef i => d.enemies.getD i defaultCh
  | .heroRef => d.hero

/-- Write the character behind a reference. -/
def UData.setRef (d : UData) : SRef → ChState → UData
  | .attRef, m => { d with att := m }
  | .enemyRef i, m => { d with enemies := d.enemies.set i m }
  | .heroRef, m => { d with hero := m }

/-- Ghost trace entries: `trig` logs a `trigger` call on a character,
`ptrig` a `trigger` call on the owning player or the game, `physHit` the
entry into `physical_damage` with the amount about to be dealt. -/
inductive TEvt
  | trig (r : SRef) (e : EvtName) (amount : Int)
  | ptrig (e : EvtName) (amount : Int)
  | physHit (r : SRef) (amount : Int)
deriving DecidableEq, Repr

/-- Combat state: game data plus the ghost trace. -/
structure UState where
  data : UData
  trace : List TEvt
deriving DecidableEq, Repr

/-- Environment: the aggregate effect of all handlers bound to one event on
one character (`some r`) or on the player/game (`none`).  It receives the
trigger's numeric argument and may rewrite the whole game data. -/
def UEnv : Type :=
  EvtName → Option SRef → Int → UData → UData

/-- The identity environment: no handlers are bound. -/
def uidEnv : UEnv :=
  fun _ _ _ d => d

/-- `self.trigger(event, amount)` on the character `r`. -/
def utrigger (env : UEnv) (r : SRef) (e : EvtName) (a : Int) (st : UState) : UState :=
  ⟨env e (some r) a st.data, st.trace ++ [.trig r e a]⟩

/-- A `trigger` on the owning player or on the game. -/
def uptrigger (env : UEnv) (e : EvtName) (a : Int) (st : UState) : UState :=
  ⟨env e none a st.data, st.trace ++ [.ptrig e a]⟩

/-- `Character.delayed_trigger`: queue the event on the character; nothing
fires yet. -/
def udelayedTrigger (r : SRef) (e : EvtName) (a : Int) (st : UState) : UState :=
  let m := st.data.get r
  ⟨st.data.setRef r { m with delayed := m.delayed ++ [⟨e, a⟩] }, st.trace⟩

/-- `Minion.silence`: fire "silenced" (running the one-shot reversal
handlers, part of the environment), then clear the wind-fury/frozen flags
(`Character.silence`) and the taunt/stealth/charge/divine-shield flags and
the deathrattle (`Minion.silence`). -/
def usilence (env : UEnv) (r : SRef) (st : UState) : UState :=
  let st := utrigger env r .silenced 0 st
  let m := st.data.get r
  ⟨st.data.setRef r { m with
      windFury := false, frozen := false, frozenThisTurn := false,
      taunt := false, stealth := false, charge := false,
      divineShield := false, hasDeathrattle := false }, st.trace⟩

/-- `Minion.remove_from_board` / `Game.remove_minion`: detach from the board
and fire "minion_removed" on the game. -/
def uremoveFromBoard (env : UEnv) (r : SRef) (st : UState) : UState :=
  let m := st.data.get r
  let st := ⟨st.data.setRef r { m with onBoard := false }, st.trace⟩
  uptrigger env .minionRemoved 0 st

/-- `die(by)` with dynamic dispatch.  For a minion (`Minion.die`): capture
the deathrattle, install the one-shot silence-on-died handler, run the base
`Character.die` (queue "died", set `dead`), fire "minion_died" on the game,
invoke the captured deathrattle, then detach from the board.  For the hero
(`Hero.die`) only the base `Character.die` runs. -/
def udie (env : UEnv) (r : SRef) (st : UState) : UState :=
  if r.isMinionRef then
    let dr := (st.data.get r).hasDeathrattle
    let st := ⟨st.data.setRef r { st.data.get r with silenceOnDied := true }, st.trace⟩
    let st := udelayedTrigger r .died 0 st
    let st := ⟨st.data.setRef r { st.data.get r with dead := true }, st.trace⟩
    let st := uptrigger env .minionDied 0 st
    let st := if dr then utrigger env r .deathrattleMark 0 st else st
    uremoveFromBoard env r st
  else
    let st := udelayedTrigger r .died 0 st
    ⟨st.data.setRef r { st.data.get r with dead := true }, st.trace⟩

/-- The attacker-type dispatch at the end of `Character.damage`: a minion
attacker gets a delayed "did_damage"; a hero attacker is neither `Minion`
nor `Player`, so nothing fires for it (`none` covers non-combatant
sources). -/
def dealDidDamage (ak : Option SRef) (amount : Int) (st : UState) : UState :=
  match ak with
  | some a => if a.isMinionRef then udelayedTrigger a .didDamage amount st else st
  | none => st

/-- `Character.damage`: no-op if immune; otherwise queue "damaged", fire
"secret_damaged" immediately, subtract health, queue "did_damage" on a
minion attacker, and die when health drops to 0 or below. -/
def udamageCore (env : UEnv) (r : SRef) (amount : Int) (ak : Option SRef) (st : UState) : UState :=
  if (st.data.get r).immune then st
  else
    let st := udelayedTrigger r .damaged amount st
    let st := utrigger env r .secretDamaged amount st
    let st := ⟨st.data.setRef r { st.data.get r with health := (st.data.get r).health - amount }, st.trace⟩
    let st := dealDidDamage ak amount st
    if (st.data.get r).health ≤ 0 then udie env r st else st

/-- `damage(amount, attacker)` with dynamic dispatch: `Minion.damage`
consumes a divine shield and otherwise defers to `Character.damage`;
`Hero.damage` absorbs into armour first and passes only the overflow on. -/
def udamage (env : UEnv) (r : SRef) (amount : Int) (ak : Option SRef) (st : UState) : UState :=
  if r.isMinionRef then
    let m := st.data.get r
    if m.divineShield then ⟨st.data.setRef r { m with divineShield := false }, st.trace⟩
    else udamageCore env r amount ak st
  else
    let m := st.data.get r
    let m2 := { m with armour := m.armour - amount }
    if m2.armour < 0 then
      let newAmount := - m2.armour
      let st := ⟨st.data.setRef r { m2 with armour := 0 }, st.trace⟩
      udamageCore env r newAmount ak st
    else ⟨st.data.setRef r m2, st.trace⟩

/-- `Character.minion_damage`: fire "minion_damaged", then `damage`. -/
def uminionDamagedStep (env : UEnv) (r : SRef) (amount : Int) (ak : Option SRef) (st : UState) : UState :=
  let st := utrigger env r .minionDamaged amount st
  udamage env r amount ak st

/-- `Character.physical_damage`: record the hit (ghost), fire
"physically_damaged", then branch on the attacker's type.  In this fragment
the attacker is a minion or the hero — never a `Player` object — so the
`minion_damage` branch is always taken, as in the source. -/
def uphysicalDamage (env : UEnv) (r : SRef) (amount : Int) (ak : Option SRef) (st : UState) : UState :=
  let st := ⟨st.data, st.trace ++ [.physHit r amount]⟩
  let st := utrigger env r .physicallyDamaged amount st
  uminionDamagedStep env r amount ak st

/-- Firing one queued event during `activate_delayed`: the bound handlers
run (environment), and the one-shot silence handler installed by
`Minion.die` runs when a "died" event fires. -/
def ufireDelayed (env : UEnv) (r : SRef) (d : DEvt) (st : UState) : UState :=
  let st := utrigger env r d.name d.amount st
  let m := st.data.get r
  if d.name = .died ∧ m.silenceOnDied then
    usilence env r ⟨st.data.setRef r { m with silenceOnDied := false }, st.trace⟩
  else st

/-- `Character.activate_delayed`: fire the queued events in order, then
clear the queue. -/
def uactivateDelayed (env : UEnv) (r : SRef) (st : UState) : UState :=
  let ds := (st.data.get r).delayed
  let st := ds.foldl (fun st d => ufireDelayed env r d st) st
  let m := st.data.get r
  ⟨st.data.setRef r { m with delayed := [] }, st.trace⟩

/-- `Minion.can_be_attacked`: not stealthed. -/
def ChState.canBeAttacked (m : ChState) : Bool :=
  !m.stealth

/-- `Character.can_attack`: positive attack, active, not frozen. -/
def ChState.canAttack (m : ChState) : Bool :=
  decide (0 < m.attackPower + m.tempAttack) && m.active && !m.frozen

/-- The target-enumeration loop of `Character.attack` (indices stand for
the minion objects): one pass computing `found_taunt` and collecting the
attackable minions in board order, starting at index `i`. -/
def scanTargetsAux : List ChState → Nat → Bool × List Nat
  | [], _ => (false, [])
  | e :: rest, i =>
    let p := scanTargetsAux rest (i + 1)
    ((e.taunt && e.canBeAttacked) || p.1, (if e.canBeAttacked then [i] else []) ++ p.2)

/-- Candidate targets offered to `choose_target`: if an attackable taunt
minion was found, the attackable minions are filtered down to the taunted
ones; otherwise the opposing hero is appended. -/
def computeTargets (enemies : List ChState) : List SRef :=
  let p := scanTargetsAux enemies 0
  if p.1 then (p.2.filter (fun i => (enemies.getD i defaultCh).taunt)).map SRef.enemyRef
  else p.2.map SRef.enemyRef ++ [SRef.heroRef]

/-- The tail of `Character.attack`: flush the attacker's delayed events,
consume the wind-fury bonus attack or deactivate, and drop stealth. -/
def uattackTail (env : UEnv) (st : UState) : UState :=
  let st := uactivateDelayed env .attRef st
  let a := st.data.att
  let a :=
    if a.windFury && !a.usedWindFury then { a with usedWindFury := true }
    else { a with active := false }
  ⟨{ st.data with att := { a with stealth := false } }, st.trace⟩

/-- The two reaction triggers that open the minion branch of
`Character.attack`: "attack_minion" on the attacker, then "attacked" on the
target. -/
def afterReactions (env : UEnv) (r : SRef) (st : UState) : UState :=
  utrigger env r .attacked 0 (utrigger env .attRef .attackMinion 0 st)

/-- The minion branch of `Character.attack`, after the target resolved to
the minion `r`: fire "attack_minion"/"attacked", abort if the attacker died
from those reactions, capture the attacker's attack value, deal both hits
(each side's power read before either hit lands), flush the target, then
run the attack tail. -/
def uattackOnMinion (env : UEnv) (r : SRef) (st : UState) : UState :=
  let st := afterReactions env r st
  if st.data.att.dead then st
  else
    let myAttack := st.data.att.attackPower + st.data.att.tempAttack
    let st := uphysicalDamage env .attRef (st.data.get r).attackPower (some r) st
    let st := uphysicalDamage env r myAttack (some .attRef) st
    let st := uactivateDelayed env r st
    uattackTail env st

/-- The hero branch of `Character.attack`: one-directional damage. -/
def uattackOnHero (env : UEnv) (st : UState) : UState :=
  let st := utrigger env .attRef .attackPlayer 0 st
  let st := utrigger env .heroRef .attacked 0 st
  if st.data.att.dead then st
  else
    let st := uphysicalDamage env .heroRef (st.data.att.attackPower + st.data.att.tempAttack) (some .attRef) st
    let st := uactivateDelayed env .heroRef st
    uattackTail env st

/-- Errors raised on the attack path. -/
inductive GErr
  | illegalAttack
deriving DecidableEq, Repr

/-- `Character.attack` for the attacking minion: precondition check,
target enumeration, the "attacking" trigger on the owning player, target
resolution through the agent's `choose` function, then the branch for the
resolved target's type. -/
def uattack (env : UEnv) (choose : List SRef → SRef) (st : UState) : Except GErr UState :=
  if ¬ st.data.att.canAttack then .error .illegalAttack
  else
    let targets := computeTargets st.data.enemies
    let st := uptrigger env .attacking 0 st
    match choose targets with
    | .heroRef => .ok (uattackOnHero env st)
    | r => .ok (uattackOnMinion env r st)

/-- Ghost projection: the physical hits in a trace, as (receiver, amount)
pairs in order. -/
def physHits (t : List TEvt) : List (SRef × Int) :=
  t.filterMap (fun e =>
    match e with
    | .physHit r a => some (r, a)
    | _ => none)

/-! ### End of turn (`Game._end_turn`) -/

/-- The per-character flags `_end_turn` manipulates. -/
structure FrState where
  active : Bool
  usedWindFury : Bool
  frozen : Bool
  frozenThisTurn : Bool
deriving DecidableEq, Repr

/-- Both players' combatants as `_end_turn` sees them: the ending (current)
player's hero and minions, and the other player's. -/
structure TState where
  curHero : FrState
  curMinions : List FrState
  othHero : FrState
  othMinions : List FrState
deriving DecidableEq, Repr

/-- `Game._end_turn`.  The "turn_ended" trigger and the secret
deactivation loop are abstracted as the `onTurnEnded`/`onSecrets` hooks
(they do not touch frozen flags in the source core).  Then: the current
hero thaws by the frozen/frozen-this-turn rule; the other player's hero and
minions only have `frozen_this_turn` cleared; the current player's hero and
minions are reactivated, wind fury reset, and the minions thaw by the same
rule. -/
def endTurn (onTurnEnded onSecrets : TState → TState) (st : TState) : TState :=
  let st := onTurnEnded st
  let ch := st.curHero
  let ch :=
    if ch.frozenThisTurn then { ch with frozenThisTurn := false }
    else { ch with frozen := false }
  let oh := { st.othHero with frozenThisTurn := false }
  let oms := st.othMinions.map (fun m => { m with frozenThisTurn := false })
  let ch := { ch with active := true }
  let cms := st.curMinions.map (fun m =>
    let m := { m with active := true, usedWindFury := false }
    if m.frozenThisTurn then { m with frozenThisTurn := false }
    else { m with frozen := false })
  onSecrets ⟨ch, cms, oh, oms⟩

/-- The uniform thaw rule the spec states for a single combatant. -/
def thawRule (m : FrState) : FrState :=
  if m.frozenThisTurn then { m with frozenThisTurn := false }
  else { m with frozen := false }

/-! ### Playing a card (`Game.play_card`, `Card.can_use`, `Card.mana_cost`) -/

/-- The player/game data `play_card` reads and writes.  Cards in hand are
identified by id. -/
structure PData where
  gameEnded : Bool
  mana : Int
  hand : List Nat
deriving DecidableEq, Repr

/-- Ghost trace of `play_card`: events fired and the card-use invocation. -/
inductive PEvt
  | cardPlayed (cid : Nat)
  | spellCast (cid : Nat)
  | useRun (cid : Nat)
  | cardUsed (cid : Nat)
  | delayedFlush
deriving DecidableEq, Repr

/-- Game state with ghost trace. -/
structure PState where
  data : PData
  trace : List PEvt
deriving DecidableEq, Repr

/-- One of `player.mana_filters`: a predicate over the card, a discount
and a floor. -/
structure MFilter where
  matchesCard : Nat → Bool
  amount : Int
  min : Int

/-- The loop of `Card.mana_cost`: apply each matching filter's discount,
returning the filter's floor immediately when the running cost falls below
it. -/
def manaCostGo (cid : Nat) : List MFilter → Int → Int
  | [], calcMana => calcMana
  | mf :: rest, calcMana =>
    if mf.matchesCard cid then
      let calcMana2 := calcMana - mf.amount
      if calcMana2 < mf.min then mf.min else manaCostGo cid rest calcMana2
    else manaCostGo cid rest calcMana

/-- A card as `play_card` consumes it: identity, base cost, optional
targeting function (`None` distinguished from "computed no targets"),
spell flag, cancel flag, and the effect of `use` on the game data. -/
structure CardB where
  id : Nat
  mana : Int
  targetingFunc : Option (PData → Option (List Nat))
  isSpellCard : Bool
  cancel : Bool
  useEff : PData → PData

/-- `Card.mana_cost`. -/
def manaCost (filters : List MFilter) (c : CardB) : Int :=
  manaCostGo c.id filters c.mana

/-- `Card.can_use`: a targetable card whose recomputed target list is
explicitly empty cannot be used; otherwise the player needs
`mana >= mana_cost`. -/
def canUse (filters : List MFilter) (c : CardB) (g : PData) : Bool :=
  let targOk :=
    match c.targetingFunc with
    | some f =>
      match f g with
      | some ts => !ts.isEmpty
      | none => true
    | none => true
  targOk && decide (manaCost filters c ≤ g.mana)

/-- Errors raised by `play_card` (`GameException`s plus the `ValueError`
Python's `hand.remove` would raise). -/
inductive PErr
  | gameOver
  | cannotUse
  | valueErr
  | cannotUseRecheck
deriving DecidableEq, Repr

/-- `Game.play_card`.  Handlers of "card_played"/"spell_cast"/"card_used"
are the `envPlayed`/`envSpellCast`/`envUsed` hooks.  A raised error leaves
whatever had already mutated in place (Python exceptions do not roll the
state back), which the returned pair makes explicit. -/
def playCard (envPlayed envSpellCast envUsed : PData → PData)
    (filters : List MFilter) (c : CardB) (st : PState) : PState × Option PErr :=
  if st.data.gameEnded then (st, some .gameOver)
  else if ¬ canUse filters c st.data then (st, some .cannotUse)
  else
    let st : PState := ⟨envPlayed st.data, st.trace ++ [.cardPlayed c.id]⟩
    if ¬ st.data.hand.contains c.id then (st, some .valueErr)
    else
      let st : PState := ⟨{ st.data with hand := st.data.hand.erase c.id }, st.trace⟩
      if canUse filters c st.data then
        let st : PState := ⟨{ st.data with mana := st.data.mana - manaCost filters c }, st.trace⟩
        let st : PState :=
          if c.isSpellCard then ⟨envSpellCast st.data, st.trace ++ [.spellCast c.id]⟩
          else st
        if ¬ c.cancel then
          let st : PState := ⟨c.useEff st.data, st.trace ++ [.useRun c.id]⟩
          let st : PState := ⟨envUsed st.data, st.trace ++ [.cardUsed c.id]⟩
          (⟨st.data, st.trace ++ [.delayedFlush]⟩, none)
        else (st, none)
      else (st, some .cannotUseRecheck)

/-! ### Derived observations and concrete fixtures -/

/-- All handler identities stored in an events dict, in storage order. -/
def esUids (es : List (Nat × List Handler)) : List Nat :=
  es.flatMap (fun p => p.2.map Handler.uid)

/-- All handler identities currently in the registry, in storage order. -/
def bindUids (st : BState) : List Nat :=
  esUids st.events

/-- Reachability invariant of a `Bindable` driven by external calls: no
handler is mid-execution, identities are fresh-bounded and globally
distinct, dict keys are unique, and the ghost one-shot bookkeeping is
consistent with the log. -/
structure BInv (st : BState) : Prop where
  inact : ∀ p ∈ st.events, ∀ h ∈ p.2, h.active = false
  flatLt : ∀ u ∈ bindUids st, u < st.nextUid
  flatNodup : (bindUids st).Nodup
  keysNodup : (st.events.map Prod.fst).Nodup
  oneLt : ∀ u ∈ st.oneShots, u < st.nextUid
  logLt : ∀ u ∈ st.log, u < st.nextUid
  oneCount : ∀ u ∈ st.oneShots, st.log.count u ≤ 1
  oneReg : ∀ u ∈ st.oneShots, st.inRegistry u = true → st.log.count u = 0
  remIff : ∀ p ∈ st.events, ∀ h ∈ p.2, (h.remove = true ↔ h.uid ∈ st.oneShots)

/-- Whether a "silenced" firing on some character precedes a
"minion_removed" firing in a trace. -/
def silenceBeforeRemoval (t : List TEvt) : Bool :=
  let si := t.findIdx? (fun e =>
    match e with
    | .trig _ .silenced _ => true
    | _ => false)
  let ri := t.findIdx? (fun e =>
    match e with
    | .ptrig .minionRemoved _ => true
    | _ => false)
  match si, ri with
  | some i, some j => decide (i < j)
  | _, _ => false

/-- A plain minion fixture. -/
def mkMinion (ap hp : Int) : ChState :=
  { isHero := false, attackPower := ap, tempAttack := 0, health := hp, maxHealth := hp,
    armour := 0, active := true, dead := false, windFury := false, usedWindFury := false,
    frozen := false, frozenThisTurn := false, immune := false, stealth := false,
    taunt := false, charge := false, divineShield := false, hasDeathrattle := false,
    silenceOnDied := false, onBoard := true, delayed := [] }

/-- A plain hero fixture. -/
def mkHero (hp : Int) : ChState :=
  { mkMinion 0 hp with isHero := true, onBoard := false }

/-- Fixture for the death-ordering scenario: a 2/2 attacker, a 2/2 enemy
minion with a deathrattle, the opposing hero. -/
def c4st : UState :=
  ⟨⟨mkMinion 2 2, [{ mkMinion 2 2 with hasDeathrattle := true }], mkHero 30⟩, []⟩

/-- Fixture for the divine-shield scenario: a 1/1 enemy minion with divine
shield. -/
def c2st : UState :=
  ⟨⟨mkMinion 2 2, [{ mkMinion 1 1 with divineShield := true }], mkHero 30⟩, []⟩

/-- Fixture for the simultaneous-exchange scenario: a 3/2 attacker, a 2/3
enemy minion. -/
def c1st : UState :=
  ⟨⟨mkMinion 3 2, [mkMinion 2 3], mkHero 30⟩, []⟩

/-- Fixture for the wind-fury scenario: a 1/3 wind-fury attacker facing an
empty board. -/
def c8st : UState :=
  ⟨⟨{ mkMinion 1 3 with windFury := true }, [], mkHero 30⟩, []⟩

/-- A frozen attacker (can_attack fails), for the illegal-attack witness. -/
def c8frozen : UState :=
  ⟨⟨{ mkMinion 1 3 with frozen := true }, [], mkHero 30⟩, []⟩

/-- Frozen-flag fixture: a combatant with nothing set. -/
def frPlain : FrState :=
  ⟨true, false, false, false⟩

/-- Frozen-flag fixture: frozen in an earlier turn (`frozen` only). -/
def frOld : FrState :=
  ⟨false, false, true, false⟩

/-- Frozen-flag fixture: frozen this turn (both flags). -/
def frNew : FrState :=
  ⟨false, false, true, true⟩

/-- Card fixture for the play-card claim: id 1, base cost 2, untargeted
spell-flagless card with identity effect. -/
def c10card : CardB :=
  { id := 1, mana := 2, targetingFunc := none, isSpellCard := false,
    cancel := false, useEff := fun d => d }

/-- A "card_played" handler that spends all the player's mana (as a
reactive effect would), making the defensive re-check fail. -/
def c10drain : PData → PData :=
  fun d => ⟨d.gameEnded, 0, d.hand⟩

/-- Game-data fixture for the play-card claim: game running, 2 mana, the
card in hand. -/
def c10st : PState :=
  ⟨⟨false, 2, [1]⟩, []⟩

/-- Deck fixture with a duplicated card: two copies of card 5 in slots 0
and 1, slot 0 not drawn, slot 1 drawn. -/
def c7deck : Deck :=
  ⟨5 :: 5 :: (List.range 28).map (fun k => k + 10),
   false :: true :: List.replicate 28 false, 29⟩

/-- The position of the first slot holding `card` (the spec's "first slot
holding an identical card"). -/
def firstIdxWith (card : Nat) : List Nat → Option Nat
  | [] => none
  | c :: cs => if c = card then some 0 else (firstIdxWith card cs).map (· + 1)

/-- The agent that always picks the opposing hero. -/
def chooseHero : List SRef → SRef :=
  fun _ => .heroRef

/-- One attack with no bound handlers against an agent that picks the hero,
as an optional step (errors become `none`). -/
def attackStep (st : UState) : Option UState :=
  match uattack uidEnv chooseHero st with
  | .ok s => some s
  | .error _ => none

/-- The wind-fury scenario chain: state after the first attack. -/
def c8s1 : Option UState :=
  attackStep c8st

/-- The wind-fury scenario chain: state after the second attack. -/
def c8s2 : Option UState :=
  c8s1.bind attackStep

/-- The wind-fury scenario chain: outcome of the third attack attempt. -/
def c8s3 : Option (Except GErr UState) :=
  c8s2.map (uattack uidEnv chooseHero)

/-- A taunting minion fixture. -/
def tauntM : ChState :=
  { mkMinion 2 2 with taunt := true }

/-- A plain 3/3 minion fixture. -/
def plainM : ChState :=
  mkMinion 3 3

/-! ## Lemmas and theorems -/

/-! ### Deck lemmas -/

theorem drawWalk_spec (us : List Bool) (k i : Nat) (h : drawWalk us k = some i) :
    i < us.length ∧ us.getD i false = false ∧ (us.take i).count false = k := by
  induction us generalizing k i with
  | nil => simp [drawWalk] at h
  | cons b rest ih =>
    cases b with
    | true =>
      have hu : drawWalk (true :: rest) k = (drawWalk rest k).map (· + 1) := rfl
      rw [hu, Option.map_eq_some'] at h
      obtain ⟨j, hj, rfl⟩ := h
      obtain ⟨h1, h2, h3⟩ := ih k j hj
      refine ⟨by simpa using Nat.succ_lt_succ h1, by simpa using h2, ?_⟩
      simpa [List.count_cons] using h3
    | false =>
      have hu : drawWalk (false :: rest) k =
          if k = 0 then some 0 else (drawWalk rest (k - 1)).map (· + 1) := rfl
      rw [hu] at h
      by_cases hk : k = 0
      · subst hk
        rw [if_pos rfl] at h
        cases h
        simp
      · rw [if_neg hk, Option.map_eq_some'] at h
        obtain ⟨j, hj, rfl⟩ := h
        obtain ⟨h1, h2, h3⟩ := ih (k - 1) j hj
        refine ⟨by simpa using Nat.succ_lt_succ h1, by simpa using h2, ?_⟩
        have hc : List.count false (List.take (j + 1) (false :: rest))
            = List.count false (List.take j rest) + 1 := by
          simp [List.count_cons]
        omega

theorem drawWalk_total (us : List Bool) (k : Nat) (h : k < us.count false) :
    ∃ i, drawWalk us k = some i := by
  induction us generalizing k with
  | nil => simp at h
  | cons b rest ih =>
    cases b with
    | true =>
      have hc : (true :: rest).count false = rest.count false := by
        simp [List.count_cons]
      obtain ⟨j, hj⟩ := ih k (by omega)
      refine ⟨j + 1, ?_⟩
      rw [show drawWalk (true :: rest) k = (drawWalk rest k).map (· + 1) from rfl, hj]
      rfl
    | false =>
      have hu : drawWalk (false :: rest) k =
          if k = 0 then some 0 else (drawWalk rest (k - 1)).map (· + 1) := rfl
      by_cases hk : k = 0
      · exact ⟨0, by rw [hu, if_pos hk]⟩
      · have hc : (false :: rest).count false = rest.count false + 1 := by
          simp [List.count_cons]
        obtain ⟨j, hj⟩ := ih (k - 1) (by omega)
        refine ⟨j + 1, ?_⟩
        rw [hu, if_neg hk, hj]
        rfl

theorem count_set_of_getD {us : List Bool} {i : Nat} {b c : Bool}
    (hi : i < us.length) (hf : us.getD i false = b) (hbc : b ≠ c) :
    (us.set i c).count c = us.count c + 1 ∧ (us.set i c).count b + 1 = us.count b := by
  induction us generalizing i with
  | nil => simp at hi
  | cons x rest ih =>
    cases i with
    | zero =>
      simp only [List.getD_cons_zero] at hf
      subst hf
      constructor
      · simp [List.count_cons, Ne.symm hbc, hbc]
      · simp [List.count_cons, Ne.symm hbc, hbc]
    | succ j =>
      simp only [List.length_cons, Nat.succ_lt_succ_iff] at hi
      simp only [List.getD_cons_succ] at hf
      obtain ⟨h1, h2⟩ := ih hi hf
      have e1 : (x :: rest).set (j + 1) c = x :: rest.set j c := rfl
      rw [e1]
      constructor
      · have g1 : (x :: rest.set j c).count c
            = (rest.set j c).count c + (if x = c then 1 else 0) := by
          simp [List.count_cons]
        have g2 : (x :: rest).count c
            = rest.count c + (if x = c then 1 else 0) := by
          simp [List.count_cons]
        omega
      · have g1 : (x :: rest.set j c).count b
            = (rest.set j c).count b + (if x = b then 1 else 0) := by
          simp [List.count_cons]
        have g2 : (x :: rest).count b
            = rest.count b + (if x = b then 1 else 0) := by
          simp [List.count_cons]
        omega

theorem putBackScan_ok (cs : List Nat) (us : List Bool) (card : Nat) (us2 : List Bool)
    (h : putBackScan cs us card = .ok us2) :
    ∃ i, i < us.length ∧ us.getD i false = true ∧ us2 = us.set i false := by
  induction cs generalizing us us2 with
  | nil => simp [putBackScan] at h
  | cons c cs ih =>
    cases us with
    | nil => simp [putBackScan] at h
    | cons u rest =>
      by_cases hc : c = card
      · have hu : putBackScan (c :: cs) (u :: rest) card =
            if u = false then .error .putBackUnused else .ok (false :: rest) := by
          simp [putBackScan, hc]
        rw [hu] at h
        cases u
        · rw [if_pos rfl] at h
          cases h
        · rw [if_neg (by decide)] at h
          cases h
          exact ⟨0, by simp, rfl, rfl⟩
      · have hu : putBackScan (c :: cs) (u :: rest) card =
            (putBackScan cs rest card).map (u :: ·) := by
          simp [putBackScan, hc]
        rw [hu] at h
        cases hr : putBackScan cs rest card with
        | error e => rw [hr] at h; simp [Except.map] at h
        | ok us2' =>
          rw [hr] at h
          simp only [Except.map, Except.ok.injEq] at h
          subst h
          obtain ⟨i, h1, h2, h3⟩ := ih rest us2' hr
          refine ⟨i + 1, by simpa using Nat.succ_lt_succ h1, by simpa using h2, ?_⟩
          rw [h3]
          rfl

theorem putBackScan_spec (cs : List Nat) (us : List Bool) (card : Nat)
    (hlen : cs.length = us.length) :
    (firstIdxWith card cs = none → putBackScan cs us card = .error .putBackForeign)
    ∧ (∀ i, firstIdxWith card cs = some i →
        ((us.getD i false = false → putBackScan cs us card = .error .putBackUnused)
         ∧ (us.getD i false = true → putBackScan cs us card = .ok (us.set i false)))) := by
  induction cs generalizing us with
  | nil =>
    refine ⟨fun _ => ?_, fun i hi => by simp [firstIdxWith] at hi⟩
    cases us <;> rfl
  | cons c cs ih =>
    cases us with
    | nil => simp at hlen
    | cons u rest =>
      have hl : cs.length = rest.length := by simpa using hlen
      by_cases hc : c = card
      · constructor
        · intro hnone
          simp [firstIdxWith, hc] at hnone
        · intro i hi
          have hi0 : i = 0 := by
            simp [firstIdxWith, hc] at hi
            omega
          subst hi0
          have hu : putBackScan (c :: cs) (u :: rest) card =
              if u = false then .error .putBackUnused else .ok (false :: rest) := by
            simp [putBackScan, hc]
          constructor
          · intro hget
            simp only [List.getD_cons_zero] at hget
            rw [hu, hget, if_pos rfl]
          · intro hget
            simp only [List.getD_cons_zero] at hget
            rw [hu, hget, if_neg (by decide)]
            rfl
      · have hu : putBackScan (c :: cs) (u :: rest) card =
            (putBackScan cs rest card).map (u :: ·) := by
          simp [putBackScan, hc]
        have hf : firstIdxWith card (c :: cs) = (firstIdxWith card cs).map (· + 1) := by
          simp [firstIdxWith, hc]
        obtain ⟨ihn, ihs⟩ := ih rest hl
        constructor
        · intro hnone
          rw [hf, Option.map_eq_none'] at hnone
          rw [hu, ihn hnone]
          rfl
        · intro i hi
          rw [hf, Option.map_eq_some'] at hi
          obtain ⟨j, hj, rfl⟩ := hi
          obtain ⟨e1, e2⟩ := ihs j hj
          constructor
          · intro hget
            simp only [List.getD_cons_succ] at hget
            rw [hu, e1 hget]
            rfl
          · intro hget
            simp only [List.getD_cons_succ] at hget
            rw [hu, e2 hget]
            rfl

/-- Reachability invariant of a deck: the flag array keeps its 30 slots and
`left` counts the unused slots. -/
def DeckInv (d : Deck) : Prop :=
  d.used.length = 30 ∧ d.left = d.used.count false

theorem count_true_add_count_false (us : List Bool) :
    us.count true + us.count false = us.length := by
  induction us with
  | nil => rfl
  | cons b rest ih =>
    cases b <;> (simp [List.count_cons]; omega)

theorem deckInv_fresh (cards : List Nat) : DeckInv (Deck.fresh cards) := by
  constructor
  · simp [Deck.fresh]
  · simp [Deck.fresh]

theorem deckInv_step (op : DeckOp) (d : Deck) (h : DeckInv d) :
    DeckInv (Deck.step op d) := by
  obtain ⟨hlen, hleft⟩ := h
  cases op with
  | draw i =>
    show DeckInv (match d.draw i with | .ok (_, d2) => d2 | .error _ => d)
    cases hd : d.draw i with
    | error e => exact ⟨hlen, hleft⟩
    | ok p =>
      unfold Deck.draw at hd
      by_cases hcd : d.canDraw
      · rw [if_neg (by simpa using hcd)] at hd
        cases hw : drawWalk d.used i with
        | none => rw [hw] at hd; cases hd
        | some j =>
          rw [hw] at hd
          cases hd
          obtain ⟨hj1, hj2, _⟩ := drawWalk_spec d.used i j hw
          obtain ⟨_, hc2⟩ := count_set_of_getD hj1 hj2 (by decide : (false : Bool) ≠ true)
          have hpos : 0 < d.left := by
            simpa [Deck.canDraw] using hcd
          refine ⟨by simpa using hlen, ?_⟩
          simp only
          omega
      · rw [if_pos (by simpa using hcd)] at hd
        cases hd
  | putBack c =>
    show DeckInv (match d.putBack c with | .ok d2 => d2 | .error _ => d)
    cases hp : d.putBack c with
    | error e => exact ⟨hlen, hleft⟩
    | ok d2 =>
      unfold Deck.putBack at hp
      cases hs : putBackScan d.cards d.used c with
      | error e => rw [hs] at hp; cases hp
      | ok us2 =>
        rw [hs] at hp
        cases hp
        obtain ⟨i, h1, h2, h3⟩ := putBackScan_ok d.cards d.used c us2 hs
        obtain ⟨hc1, _⟩ := count_set_of_getD h1 h2 (by decide : (true : Bool) ≠ false)
        subst h3
        exact ⟨by simpa using hlen, by simpa using by omega⟩

theorem deckInv_run (ops : List DeckOp) (d : Deck) (h : DeckInv d) :
    DeckInv (Deck.run ops d) := by
  induction ops generalizing d with
  | nil => exact h
  | cons op ops ih => exact ih (Deck.step op d) (deckInv_step op d h)

/-- Claim C6: for every draw/put-back sequence from a fresh 30-card deck,
`left + count(used) = 30` holds after every operation; `draw` raises
exactly when `left = 0`, and otherwise, for an index in `[0, left-1]`, it
selects the `(index+1)`-th not-yet-used slot (whose flag was false and
which has exactly `index` unused slots before it), marks exactly that slot
used, decrements `left`, and returns that slot's card; the index-to-slot
selection is injective, so a uniform index yields a uniform choice among
the remaining cards. -/
theorem c6_deck_draw_invariant :
    (∀ (cards : List Nat) (ops : List DeckOp),
      (Deck.run ops (Deck.fresh cards)).left
        + (Deck.run ops (Deck.fresh cards)).used.count true = 30
      ∧ (Deck.run ops (Deck.fresh cards)).used.length = 30)
    ∧ (∀ d : Deck, DeckInv d →
        ((d.left = 0 → ∀ idx, d.draw idx = .error .cannotDraw)
        ∧ (∀ idx, idx < d.left →
            ∃ i, drawWalk d.used idx = some i
              ∧ d.used.getD i false = false
              ∧ (d.used.take i).count false = idx
              ∧ d.draw idx = .ok (d.cards.getD i 0,
                  ⟨d.cards, d.used.set i true, d.left - 1⟩))))
    ∧ (∀ (us : List Bool) (k1 k2 i : Nat),
        drawWalk us k1 = some i → drawWalk us k2 = some i → k1 = k2) := by
  refine ⟨?_, ?_, ?_⟩
  · intro cards ops
    obtain ⟨hl, he⟩ := deckInv_run ops (Deck.fresh cards) (deckInv_fresh cards)
    have hc := count_true_add_count_false (Deck.run ops (Deck.fresh cards)).used
    exact ⟨by omega, hl⟩
  · intro d hd
    obtain ⟨hl, he⟩ := hd
    constructor
    · intro h0 idx
      unfold Deck.draw
      rw [if_pos]
      simp [Deck.canDraw, h0]
    · intro idx hidx
      obtain ⟨i, hi⟩ := drawWalk_total d.used idx (by omega)
      obtain ⟨h1, h2, h3⟩ := drawWalk_spec d.used idx i hi
      refine ⟨i, hi, h2, h3, ?_⟩
      unfold Deck.draw
      rw [if_neg, hi]
      simp only [Deck.canDraw, decide_eq_true_eq, not_not]
      omega
  · intro us k1 k2 i ha hb
    obtain ⟨_, _, h3⟩ := drawWalk_spec us k1 i ha
    obtain ⟨_, _, h4⟩ := drawWalk_spec us k2 i hb
    omega

/-- Witness for C6: on a fresh deck, drawing with index 5 succeeds and
picks slot 5 (whose flag was unused). -/
theorem c6_deck_draw_invariant_witness :
    ∃ i, drawWalk (Deck.fresh (List.range 30)).used 5 = some i
      ∧ (Deck.fresh (List.range 30)).used.getD i false = false
      ∧ ((Deck.fresh (List.range 30)).used.take i).count false = 5
      ∧ (Deck.fresh (List.range 30)).draw 5 =
          .ok ((Deck.fresh (List.range 30)).cards.getD i 0,
            ⟨(Deck.fresh (List.range 30)).cards,
             (Deck.fresh (List.range 30)).used.set i true,
             (Deck.fresh (List.range 30)).left - 1⟩) :=
  (c6_deck_draw_invariant.2.1 (Deck.fresh (List.range 30))
    (deckInv_fresh (List.range 30))).2 5 (by decide)

/-- Counterexample to claim C7 as stated: with two copies of card 5, slot 0
not drawn and slot 1 drawn, `put_back` raises even though the first slot
holding the card that is marked used (slot 1) exists; the spec-modelled
behaviour succeeds there. -/
theorem c7_put_back_counterexample :
    Deck.putBack c7deck 5 = .error .putBackUnused
    ∧ c7deck.cards.getD 1 0 = 5
    ∧ c7deck.used.getD 1 false = true
    ∧ Deck.putBackClaim c7deck 5 =
        .ok ⟨c7deck.cards, c7deck.used.set 1 false, c7deck.left + 1⟩ := by
  decide

/-- Claim C7 (amended): `put_back` locates the first slot holding an
identical card; it fails when no slot holds the card, fails when that first
matching slot is not marked used (even if a later matching slot is), and
otherwise marks that first slot unused and increments the remaining
count. -/
theorem c7_put_back_first_slot (d : Deck) (card : Nat)
    (hlen : d.cards.length = d.used.length) :
    (firstIdxWith card d.cards = none → d.putBack card = .error .putBackForeign)
    ∧ (∀ i, firstIdxWith card d.cards = some i →
        ((d.used.getD i false = false → d.putBack card = .error .putBackUnused)
         ∧ (d.used.getD i false = true →
             d.putBack card = .ok ⟨d.cards, d.used.set i false, d.left + 1⟩))) := by
  obtain ⟨hn, hsome⟩ := putBackScan_spec d.cards d.used card hlen
  refine ⟨fun h0 => ?_, fun i hi => ⟨fun hg => ?_, fun hg => ?_⟩⟩
  · unfold Deck.putBack
    rw [hn h0]
  · unfold Deck.putBack
    rw [((hsome i hi).1) hg]
  · unfold Deck.putBack
    rw [((hsome i hi).2) hg]

/-- Witness for the amended C7: on the duplicated-card deck the first slot
holding card 5 is slot 0, which is unused, so `put_back` raises. -/
theorem c7_put_back_first_slot_witness :
    Deck.putBack c7deck 5 = .error .putBackUnused ∧
    Deck.putBack c7deck 99 = .error .putBackForeign :=
  ⟨((c7_put_back_first_slot c7deck 5 (by decide)).2 0 (by decide)).1 (by decide),
   (c7_put_back_first_slot c7deck 99 (by decide)).1 (by decide)⟩

/-- Claim C2: for a minion with divine shield, `damage` of any amount from
any attacker only consumes the shield — the full state (health, queued and
fired events, death flag) is otherwise untouched; without a shield it is
exactly `Character.damage`; concretely, a shielded 1-health minion damaged
for 99 survives undamaged and shield-less (no event fired), and a
subsequent hit of 1 kills it. -/
theorem c2_divine_shield (env : UEnv) (r : SRef) (amount : Int) (ak : Option SRef)
    (st : UState) (hm : r.isMinionRef = true) :
    ((st.data.get r).divineShield = true →
      udamage env r amount ak st =
        ⟨st.data.setRef r { st.data.get r with divineShield := false }, st.trace⟩)
    ∧ ((st.data.get r).divineShield = false →
      udamage env r amount ak st = udamageCore env r amount ak st)
    ∧ (let s1 := udamage uidEnv (.enemyRef 0) 99 (some .attRef) c2st
       (s1.data.get (.enemyRef 0)).health = 1
       ∧ (s1.data.get (.enemyRef 0)).divineShield = false
       ∧ (s1.data.get (.enemyRef 0)).dead = false
       ∧ s1.trace = c2st.trace
       ∧ ((udamage uidEnv (.enemyRef 0) 1 (some .attRef) s1).data.get
            (.enemyRef 0)).dead = true) := by
  refine ⟨fun hds => ?_, fun hds => ?_, by decide⟩
  · simp [udamage, hm, hds]
  · simp [udamage, hm, hds]

/-- Witness for C2 at a concrete shielded minion. -/
theorem c2_divine_shield_witness :
    udamage uidEnv (.enemyRef 0) 99 (some .attRef) c2st =
      ⟨c2st.data.setRef (.enemyRef 0)
        { c2st.data.get (.enemyRef 0) with divineShield := false }, c2st.trace⟩ :=
  (c2_divine_shield uidEnv (.enemyRef 0) 99 (some .attRef) c2st rfl).1 (by decide)

/-- Counterexample to claim C9 as stated: at an end-of-turn, an *other*-player
minion whose `frozen_this_turn` flag is clear keeps its `frozen` flag — the
code does not apply the thaw rule to the non-ending player's combatants,
while the claim asserts the rule uniformly at every end-of-turn. -/
theorem c9_frozen_counterexample :
    frOld.frozenThisTurn = false
    ∧ ((endTurn id id ⟨frPlain, [], frPlain, [frOld]⟩).othMinions.getD 0 frPlain).frozen = true
    ∧ (endTurn id id ⟨frPlain, [], frPlain, [frOld]⟩).othMinions ≠ [thawRule frOld] := by
  decide

/-- Claim C9 (amended): at end of turn the frozen/frozen-this-turn rule is
applied to the current (ending) player's hero and minions, which are also
reactivated and have wind fury reset; the other player's hero and minions
only have `frozen_this_turn` cleared, their `frozen` flag untouched.  Hence
a minion frozen during the opponent's turn stays frozen through that
end-of-turn and thaws only at the following end-of-turn (of its owner). -/
theorem c9_frozen_rule (st : TState) :
    (endTurn id id st).curHero = { thawRule st.curHero with active := true }
    ∧ (endTurn id id st).curMinions
        = st.curMinions.map (fun m => thawRule { m with active := true, usedWindFury := false })
    ∧ (endTurn id id st).othHero = { st.othHero with frozenThisTurn := false }
    ∧ (endTurn id id st).othMinions
        = st.othMinions.map (fun m => { m with frozenThisTurn := false })
    ∧ ((endTurn id id ⟨frPlain, [], frPlain, [frNew]⟩).othMinions = [frOld]
       ∧ (endTurn id id ⟨frPlain, [frOld], frPlain, []⟩).curMinions
           = [⟨true, false, false, false⟩]) := by
  refine ⟨?_, ?_, ?_, ?_, by decide⟩
  · by_cases h : st.curHero.frozenThisTurn <;> simp [endTurn, thawRule, h]
  · rfl
  · rfl
  · rfl

/-- Claim C10: when the first `can_use` check passes but the defensive
re-check after the "card_played" trigger and hand removal fails, the raised
error leaves the state mutated exactly that far: "card_played" has fired,
the card is gone from the hand, and nothing further ran — no mana
deduction, no "spell_cast", no `use`, no "card_used", no flush. -/
theorem c10_play_card_not_atomic (envPlayed envSpellCast envUsed : PData → PData)
    (filters : List MFilter) (c : CardB) (st : PState)
    (h1 : st.data.gameEnded = false)
    (h2 : canUse filters c st.data = true)
    (h3 : (envPlayed st.data).hand.contains c.id = true)
    (h4 : canUse filters c
        { envPlayed st.data with hand := (envPlayed st.data).hand.erase c.id } = false) :
    playCard envPlayed envSpellCast envUsed filters c st =
      (⟨{ envPlayed st.data with hand := (envPlayed st.data).hand.erase c.id },
        st.trace ++ [.cardPlayed c.id]⟩,
       some .cannotUseRecheck) := by
  unfold playCard
  simp only [h1, h2, h3, h4, Bool.false_eq_true, if_false, not_true, Bool.true_eq_false,
    not_false_iff, if_true, ite_false, ite_true, Bool.not_true, Bool.not_false]

/-- Witness for C10: a 2-cost card, 2 mana, and a "card_played" handler
that drains the mana: the error is raised with the card already removed and
the event already fired. -/
theorem c10_play_card_not_atomic_witness :
    playCard c10drain id id [] c10card c10st =
      (⟨⟨false, 0, []⟩, [PEvt.cardPlayed 1]⟩, some .cannotUseRecheck) :=
  c10_play_card_not_atomic c10drain id id [] c10card c10st
    (by decide) (by decide) (by decide) (by decide)

/-! ### Target-selection lemmas -/

theorem scanTargetsAux_fst (l : List ChState) (i : Nat) :
    (scanTargetsAux l i).1 = l.any (fun e => e.taunt && e.canBeAttacked) := by
  induction l generalizing i with
  | nil => rfl
  | cons e rest ih =>
    have hu : (scanTargetsAux (e :: rest) i).1 =
        ((e.taunt && e.canBeAttacked) || (scanTargetsAux rest (i + 1)).1) := rfl
    rw [hu, ih (i + 1), List.any_cons]

theorem mem_scanTargetsAux (l : List ChState) (i k : Nat) :
    k ∈ (scanTargetsAux l i).2 ↔
      ∃ j, j < l.length ∧ k = i + j ∧ (l.getD j defaultCh).canBeAttacked = true := by
  induction l generalizing i with
  | nil => simp [scanTargetsAux]
  | cons e rest ih =>
    have hu : (scanTargetsAux (e :: rest) i).2 =
        (if e.canBeAttacked then [i] else []) ++ (scanTargetsAux rest (i + 1)).2 := rfl
    rw [hu, List.mem_append]
    constructor
    · rintro (hk | hk)
      · by_cases hc : e.canBeAttacked
        · simp only [if_pos hc, List.mem_singleton] at hk
          subst hk
          exact ⟨0, by simp, by omega, by simpa using hc⟩
        · simp [hc] at hk
      · rw [ih (i + 1)] at hk
        obtain ⟨j, h1, h2, h3⟩ := hk
        exact ⟨j + 1, by simpa using Nat.succ_lt_succ h1, by omega, by simpa using h3⟩
    · rintro ⟨j, h1, h2, h3⟩
      cases j with
      | zero =>
        left
        simp only [List.getD_cons_zero] at h3
        simp [h3, h2]
      | succ j =>
        right
        rw [ih (i + 1)]
        exact ⟨j, by simpa using h1, by omega, by simpa using h3⟩

/-- Claim C3: the candidate list offered to `choose_target` consists of the
attackable (non-stealthed) opposing minions; when an attackable taunt minion
exists it is exactly the attackable taunt minions with the hero excluded,
otherwise it is the attackable minions plus the opposing hero; in
particular, with one taunted and one untaunted attackable enemy the sole
candidate is the taunted one. -/
theorem c3_taunt_targets (enemies : List ChState) :
    ((∃ e ∈ enemies, e.canBeAttacked = true ∧ e.taunt = true) →
      (∀ i, SRef.enemyRef i ∈ computeTargets enemies ↔
        (i < enemies.length ∧ (enemies.getD i defaultCh).canBeAttacked = true
          ∧ (enemies.getD i defaultCh).taunt = true))
      ∧ SRef.heroRef ∉ computeTargets enemies)
    ∧ ((¬ ∃ e ∈ enemies, e.canBeAttacked = true ∧ e.taunt = true) →
      (∀ i, SRef.enemyRef i ∈ computeTargets enemies ↔
        (i < enemies.length ∧ (enemies.getD i defaultCh).canBeAttacked = true))
      ∧ SRef.heroRef ∈ computeTargets enemies)
    ∧ (∀ t u : ChState, t.taunt = true → t.stealth = false → u.taunt = false →
        u.stealth = false →
        computeTargets [t, u] = [SRef.enemyRef 0]
          ∧ computeTargets [u, t] = [SRef.enemyRef 1]) := by
  have hany : (scanTargetsAux enemies 0).1 = true ↔
      ∃ e ∈ enemies, e.canBeAttacked = true ∧ e.taunt = true := by
    rw [scanTargetsAux_fst, List.any_eq_true]
    constructor
    · rintro ⟨e, he, hp⟩
      rw [Bool.and_eq_true] at hp
      exact ⟨e, he, hp.2, hp.1⟩
    · rintro ⟨e, he, h1, h2⟩
      exact ⟨e, he, by rw [Bool.and_eq_true]; exact ⟨h2, h1⟩⟩
  refine ⟨?_, ?_, ?_⟩
  · intro hex
    have hft : (scanTargetsAux enemies 0).1 = true := hany.mpr hex
    have hc : computeTargets enemies =
        ((scanTargetsAux enemies 0).2.filter
          (fun i => (enemies.getD i defaultCh).taunt)).map SRef.enemyRef := by
      simp only [computeTargets, hft, if_true]
    constructor
    · intro i
      rw [hc, List.mem_map]
      constructor
      · rintro ⟨a, ha, hae⟩
        cases hae
        rw [List.mem_filter] at ha
        obtain ⟨hmem, htaunt⟩ := ha
        rw [mem_scanTargetsAux] at hmem
        obtain ⟨j, h1, h2, h3⟩ := hmem
        have : i = j := by omega
        subst this
        exact ⟨h1, h3, htaunt⟩
      · rintro ⟨h1, h2, h3⟩
        refine ⟨i, ?_, rfl⟩
        rw [List.mem_filter, mem_scanTargetsAux]
        exact ⟨⟨i, h1, by omega, h2⟩, h3⟩
    · rw [hc]
      intro hmem
      rw [List.mem_map] at hmem
      obtain ⟨a, _, hae⟩ := hmem
      cases hae
  · intro hex
    have hft : (scanTargetsAux enemies 0).1 = false := by
      cases hb : (scanTargetsAux enemies 0).1
      · rfl
      · exact absurd (hany.mp hb) hex
    have hc : computeTargets enemies =
        (scanTargetsAux enemies 0).2.map SRef.enemyRef ++ [SRef.heroRef] := by
      simp only [computeTargets, hft, Bool.false_eq_true, if_false]
    constructor
    · intro i
      rw [hc, List.mem_append]
      constructor
      · rintro (hm | hm)
        · rw [List.mem_map] at hm
          obtain ⟨a, ha, hae⟩ := hm
          cases hae
          rw [mem_scanTargetsAux] at ha
          obtain ⟨j, h1, h2, h3⟩ := ha
          have : i = j := by omega
          subst this
          exact ⟨h1, h3⟩
        · simp at hm
      · rintro ⟨h1, h2⟩
        left
        rw [List.mem_map]
        refine ⟨i, ?_, rfl⟩
        rw [mem_scanTargetsAux]
        exact ⟨i, h1, by omega, h2⟩
    · rw [hc, List.mem_append]
      right
      simp
  · intro t u ht hs hut hus
    constructor
    · simp [computeTargets, scanTargetsAux, ChState.canBeAttacked, ht, hs, hut, hus]
    · simp [computeTargets, scanTargetsAux, ChState.canBeAttacked, ht, hs, hut, hus]

/-- Witness for C3: taunted plus plain minion gives the taunted minion as
the only candidate, in both board orders. -/
theorem c3_taunt_targets_witness :
    computeTargets [tauntM, plainM] = [SRef.enemyRef 0]
      ∧ computeTargets [plainM, tauntM] = [SRef.enemyRef 1] :=
  (c3_taunt_targets []).2.2 tauntM plainM rfl rfl rfl rfl

/-! ### Trace lemmas for the combat fragment -/

theorem physHits_append (t l : List TEvt) :
    physHits (t ++ l) = physHits t ++ physHits l := by
  simp [physHits]

theorem physHits_utrigger (env : UEnv) (r : SRef) (e : EvtName) (a : Int) (st : UState) :
    physHits (utrigger env r e a st).trace = physHits st.trace := by
  simp [utrigger, physHits]

theorem physHits_uptrigger (env : UEnv) (e : EvtName) (a : Int) (st : UState) :
    physHits (uptrigger env e a st).trace = physHits st.trace := by
  simp [uptrigger, physHits]

theorem trace_udelayedTrigger (r : SRef) (e : EvtName) (a : Int) (st : UState) :
    (udelayedTrigger r e a st).trace = st.trace :=
  rfl

theorem physHits_usilence (env : UEnv) (r : SRef) (st : UState) :
    physHits (usilence env r st).trace = physHits st.trace := by
  simp [usilence, physHits_utrigger]

theorem physHits_uremoveFromBoard (env : UEnv) (r : SRef) (st : UState) :
    physHits (uremoveFromBoard env r st).trace = physHits st.trace := by
  simp [uremoveFromBoard, physHits_uptrigger]

theorem physHits_udie (env : UEnv) (r : SRef) (st : UState) :
    physHits (udie env r st).trace = physHits st.trace := by
  unfold udie
  by_cases hm : r.isMinionRef = true
  · simp only [hm, if_true]
    by_cases hdr : (st.data.get r).hasDeathrattle = true
    · simp [hdr, physHits_uremoveFromBoard, physHits_utrigger, physHits_uptrigger,
        trace_udelayedTrigger, udelayedTrigger]
    · simp [hdr, physHits_uremoveFromBoard, physHits_utrigger, physHits_uptrigger,
        trace_udelayedTrigger, udelayedTrigger]
  · simp [hm, trace_udelayedTrigger, udelayedTrigger]

theorem trace_dealDidDamage (ak : Option SRef) (amount : Int) (st : UState) :
    (dealDidDamage ak amount st).trace = st.trace := by
  cases ak with
  | none => rfl
  | some a =>
    by_cases h : a.isMinionRef = true
    · simp [dealDidDamage, h, trace_udelayedTrigger]
    · simp [dealDidDamage, h]

theorem physHits_udamageCore (env : UEnv) (r : SRef) (amount : Int) (ak : Option SRef)
    (st : UState) :
    physHits (udamageCore env r amount ak st).trace = physHits st.trace := by
  unfold udamageCore
  by_cases him : (st.data.get r).immune = true
  · simp [him]
  · simp only [him, Bool.false_eq_true, if_false]
    split
    · rw [physHits_udie]
      rw [show (dealDidDamage ak amount
          ⟨(utrigger env r .secretDamaged amount
              (udelayedTrigger r .damaged amount st)).data.setRef r _,
            (utrigger env r .secretDamaged amount
              (udelayedTrigger r .damaged amount st)).trace⟩).trace
          = (utrigger env r .secretDamaged amount
              (udelayedTrigger r .damaged amount st)).trace from trace_dealDidDamage ..]
      rw [physHits_utrigger, trace_udelayedTrigger]
    · rw [show (dealDidDamage ak amount
          ⟨(utrigger env r .secretDamaged amount
              (udelayedTrigger r .damaged amount st)).data.setRef r _,
            (utrigger env r .secretDamaged amount
              (udelayedTrigger r .damaged amount st)).trace⟩).trace
          = (utrigger env r .secretDamaged amount
              (udelayedTrigger r .damaged amount st)).trace from trace_dealDidDamage ..]
      rw [physHits_utrigger, trace_udelayedTrigger]

theorem physHits_udamage (env : UEnv) (r : SRef) (amount : Int) (ak : Option SRef)
    (st : UState) :
    physHits (udamage env r amount ak st).trace = physHits st.trace := by
  unfold udamage
  by_cases hm : r.isMinionRef = true
  · simp only [hm, if_true]
    split
    · rfl
    · rw [physHits_udamageCore]
  · simp only [hm, Bool.false_eq_true, if_false]
    split
    · rw [physHits_udamageCore]
    · rfl

theorem physHits_uminionDamagedStep (env : UEnv) (r : SRef) (amount : Int)
    (ak : Option SRef) (st : UState) :
    physHits (uminionDamagedStep env r amount ak st).trace = physHits st.trace := by
  unfold uminionDamagedStep
  rw [physHits_udamage, physHits_utrigger]

theorem physHits_uphysicalDamage (env : UEnv) (r : SRef) (amount : Int)
    (ak : Option SRef) (st : UState) :
    physHits (uphysicalDamage env r amount ak st).trace
      = physHits st.trace ++ [(r, amount)] := by
  unfold uphysicalDamage
  rw [physHits_uminionDamagedStep, physHits_utrigger]
  show physHits (st.trace ++ [.physHit r amount]) = _
  rw [physHits_append]
  rfl

theorem physHits_ufireDelayed (env : UEnv) (r : SRef) (d : DEvt) (st : UState) :
    physHits (ufireDelayed env r d st).trace = physHits st.trace := by
  simp only [ufireDelayed]
  split
  · rw [physHits_usilence]
    exact physHits_utrigger env r d.name d.amount st
  · exact physHits_utrigger env r d.name d.amount st

theorem physHits_foldl_fire (env : UEnv) (r : SRef) (ds : List DEvt) (st : UState) :
    physHits (ds.foldl (fun st d => ufireDelayed env r d st) st).trace
      = physHits st.trace := by
  induction ds generalizing st with
  | nil => rfl
  | cons d ds ih =>
    rw [List.foldl_cons, ih, physHits_ufireDelayed]

theorem physHits_uactivateDelayed (env : UEnv) (r : SRef) (st : UState) :
    physHits (uactivateDelayed env r st).trace = physHits st.trace := by
  unfold uactivateDelayed
  exact physHits_foldl_fire env r (st.data.get r).delayed st

theorem physHits_uattackTail (env : UEnv) (st : UState) :
    physHits (uattackTail env st).trace = physHits st.trace := by
  simp only [uattackTail]
  exact physHits_uactivateDelayed env .attRef st

theorem physHits_afterReactions (env : UEnv) (r : SRef) (st : UState) :
    physHits (afterReactions env r st).trace = physHits st.trace := by
  unfold afterReactions
  rw [physHits_utrigger, physHits_utrigger]

/-- Claim C1: in the minion branch of `attack`, when the attacker survived
the "attack_minion"/"attacked" reactions, the two hits delivered are, in
order, the attacker taking the target's attack power and the target taking
the attacker's `attack_power + temp_attack`, both read from the state right
after those reactions and before either hit lands — for every environment
(i.e. whatever any handler does in reaction to the first hit, the second
hit's damage is unchanged). -/
theorem c1_simultaneous_exchange (env : UEnv) (r : SRef) (st : UState)
    (hm : r.isMinionRef = true)
    (hdead : (afterReactions env r st).data.att.dead = false) :
    physHits (uattackOnMinion env r st).trace =
      physHits st.trace
        ++ [(SRef.attRef, ((afterReactions env r st).data.get r).attackPower),
            (r, (afterReactions env r st).data.att.attackPower
              + (afterReactions env r st).data.att.tempAttack)] := by
  simp only [uattackOnMinion, hdead, Bool.false_eq_true, if_false]
  rw [physHits_uattackTail, physHits_uactivateDelayed, physHits_uphysicalDamage,
    physHits_uphysicalDamage, physHits_afterReactions]
  simp

/-- Witness for C1: a 3/2 attacker against a 2/3 minion with no handlers
bound — hits are (attacker takes 2, target takes 3). -/
theorem c1_simultaneous_exchange_witness :
    physHits (uattackOnMinion uidEnv (.enemyRef 0) c1st).trace =
      physHits c1st.trace
        ++ [(SRef.attRef,
             ((afterReactions uidEnv (.enemyRef 0) c1st).data.get (.enemyRef 0)).attackPower),
            ((SRef.enemyRef 0 : SRef),
             (afterReactions uidEnv (.enemyRef 0) c1st).data.att.attackPower
               + (afterReactions uidEnv (.enemyRef 0) c1st).data.att.tempAttack)] :=
  c1_simultaneous_exchange uidEnv (.enemyRef 0) c1st rfl (by decide)

/-- Counterexample to claim C4 as stated: in the full death sequence
(`die` followed by the delayed flush that the attack code performs) of a
deathrattle minion, the firing order is minion_died, deathrattle, board
removal, and only then the delayed "died" with its one-shot self-silence —
the silence does not run before board removal. -/
theorem c4_death_ordering_counterexample :
    (uactivateDelayed uidEnv (.enemyRef 0) (udie uidEnv (.enemyRef 0) c4st)).trace
      = [TEvt.ptrig .minionDied 0, TEvt.trig (.enemyRef 0) .deathrattleMark 0,
         TEvt.ptrig .minionRemoved 0, TEvt.trig (.enemyRef 0) .died 0,
         TEvt.trig (.enemyRef 0) .silenced 0]
    ∧ silenceBeforeRemoval
        (uactivateDelayed uidEnv (.enemyRef 0) (udie uidEnv (.enemyRef 0) c4st)).trace
        = false := by
  decide

/-- Claim C4 (amended): `Minion.die` captures the deathrattle before the
one-shot silence-on-died handler is bound, then runs the base die (queueing
"died"), fires "minion_died" on the game, invokes the captured deathrattle
(if any), then detaches from the board; the self-silence runs only at the
delayed-events flush, after board removal, leaving the minion dead,
off-board and silenced (deathrattle cleared). -/
theorem c4_death_ordering (a hr m : ChState) (tr : List TEvt) (hd : m.delayed = []) :
    (uactivateDelayed uidEnv (.enemyRef 0)
        (udie uidEnv (.enemyRef 0) ⟨⟨a, [m], hr⟩, tr⟩)).trace
      = tr ++ [TEvt.ptrig .minionDied 0]
          ++ (if m.hasDeathrattle then [TEvt.trig (.enemyRef 0) .deathrattleMark 0] else [])
          ++ [TEvt.ptrig .minionRemoved 0, TEvt.trig (.enemyRef 0) .died 0,
              TEvt.trig (.enemyRef 0) .silenced 0]
    ∧ ((uactivateDelayed uidEnv (.enemyRef 0)
          (udie uidEnv (.enemyRef 0) ⟨⟨a, [m], hr⟩, tr⟩)).data.get (.enemyRef 0)).dead = true
    ∧ ((uactivateDelayed uidEnv (.enemyRef 0)
          (udie uidEnv (.enemyRef 0) ⟨⟨a, [m], hr⟩, tr⟩)).data.get (.enemyRef 0)).onBoard = false
    ∧ ((uactivateDelayed uidEnv (.enemyRef 0)
          (udie uidEnv (.enemyRef 0) ⟨⟨a, [m], hr⟩, tr⟩)).data.get
            (.enemyRef 0)).hasDeathrattle = false := by
  cases hdr : m.hasDeathrattle <;>
    simp [udie, uactivateDelayed, ufireDelayed, usilence, uremoveFromBoard,
      udelayedTrigger, utrigger, uptrigger, uidEnv, UData.get, UData.setRef,
      SRef.isMinionRef, hd, hdr]

/-- Witness for the amended C4 at a concrete deathrattle minion. -/
theorem c4_death_ordering_witness :
    (uactivateDelayed uidEnv (.enemyRef 0)
        (udie uidEnv (.enemyRef 0) c4st)).trace
      = c4st.trace ++ [TEvt.ptrig .minionDied 0]
          ++ (if ({ mkMinion 2 2 with hasDeathrattle := true } : ChState).hasDeathrattle
              then [TEvt.trig (.enemyRef 0) .deathrattleMark 0] else [])
          ++ [TEvt.ptrig .minionRemoved 0, TEvt.trig (.enemyRef 0) .died 0,
              TEvt.trig (.enemyRef 0) .silenced 0] :=
  (c4_death_ordering (mkMinion 2 2) (mkHero 30)
    { mkMinion 2 2 with hasDeathrattle := true } [] (by decide)).1

/-- Claim C8: at the end of a completed attack, an attacker with wind fury
not yet used keeps its `active` flag and only marks `used_wind_fury`;
otherwise it is deactivated; an attacker failing `can_attack` gets the
illegal-action error; hence the wind-fury minion attacks twice legally and
the third attempt raises. -/
theorem c8_wind_fury :
    (∀ (env : UEnv) (st : UState),
      ((uactivateDelayed env .attRef st).data.att.windFury = true →
        (uactivateDelayed env .attRef st).data.att.usedWindFury = false →
        (uattackTail env st).data.att =
          { (uactivateDelayed env .attRef st).data.att with
              usedWindFury := true, stealth := false })
      ∧ (((uactivateDelayed env .attRef st).data.att.windFury
            && !(uactivateDelayed env .attRef st).data.att.usedWindFury) = false →
        (uattackTail env st).data.att =
          { (uactivateDelayed env .attRef st).data.att with
              active := false, stealth := false }))
    ∧ (∀ (env : UEnv) (choose : List SRef → SRef) (st : UState),
        st.data.att.canAttack = false → uattack env choose st = .error .illegalAttack)
    ∧ (c8s1.map (fun s => (s.data.att.active, s.data.att.usedWindFury, s.data.att.windFury))
          = some (true, true, true)
      ∧ c8s2.map (fun s => s.data.att.active) = some false
      ∧ c8s3 = some (.error .illegalAttack)) := by
  refine ⟨?_, ?_, by decide⟩
  · intro env st
    constructor
    · intro h1 h2
      simp [uattackTail, h1, h2]
    · intro h
      simp [uattackTail, h]
  · intro env choose st h
    simp [uattack, h]

/-- Witness for C8: a frozen attacker fails the `can_attack` precondition
with the illegal-action error. -/
theorem c8_wind_fury_witness :
    uattack uidEnv chooseHero c8frozen = .error .illegalAttack :=
  c8_wind_fury.2.1 uidEnv chooseHero c8frozen (by decide)

/-! ### Event-bus lemmas -/

theorem runHandlers_cons (a : Handler) (rest : List Handler) :
    runHandlers (a :: rest) =
      (if a.active then ((a :: (runHandlers rest).1), (runHandlers rest).2)
       else if a.remove then ((runHandlers rest).1, a.uid :: (runHandlers rest).2)
       else ((a :: (runHandlers rest).1), a.uid :: (runHandlers rest).2)) := by
  rfl

theorem runHandlers_eq (hs : List Handler) (h : ∀ x ∈ hs, x.active = false) :
    runHandlers hs = (hs.filter (fun x => !x.remove), hs.map Handler.uid) := by
  induction hs with
  | nil => rfl
  | cons a rest ih =>
    have ha : a.active = false := h a (by simp)
    have hrest : ∀ x ∈ rest, x.active = false := fun x hx => h x (by simp [hx])
    rw [runHandlers_cons, ih hrest]
    cases hr : a.remove <;> simp [ha, hr, List.filter_cons]

theorem runHandlers_mem_fst (hs : List Handler) (x : Handler)
    (h : x ∈ (runHandlers hs).1) : x ∈ hs := by
  induction hs with
  | nil => simp [runHandlers] at h
  | cons a rest ih =>
    have hsub : (runHandlers (a :: rest)).1 = a :: (runHandlers rest).1
        ∨ (runHandlers (a :: rest)).1 = (runHandlers rest).1 := by
      rw [runHandlers_cons]
      cases hac : a.active <;> cases hr : a.remove <;> simp
    rcases hsub with he | he <;> rw [he] at h
    · rcases List.mem_cons.mp h with h | h
      · simp [h]
      · simp [ih h]
    · simp [ih h]

theorem runHandlers_log_mem (hs : List Handler) (u : Nat)
    (h : u ∈ (runHandlers hs).2) : ∃ x ∈ hs, x.uid = u ∧ x.active = false := by
  induction hs with
  | nil => simp [runHandlers] at h
  | cons a rest ih =>
    rw [runHandlers_cons] at h
    by_cases hac : a.active = true
    · simp only [hac, if_true] at h
      obtain ⟨x, hx, hxx⟩ := ih h
      exact ⟨x, by simp [hx], hxx⟩
    · simp only [Bool.not_eq_true] at hac
      cases hr : a.remove
      · simp only [hac, Bool.false_eq_true, if_false, hr, List.mem_cons] at h
        rcases h with h | h
        · exact ⟨a, by simp, h.symm, hac⟩
        · obtain ⟨x, hx, hxx⟩ := ih h
          exact ⟨x, by simp [hx], hxx⟩
      · simp only [hac, Bool.false_eq_true, if_false, hr, if_true, List.mem_cons] at h
        rcases h with h | h
        · exact ⟨a, by simp, h.symm, hac⟩
        · obtain ⟨x, hx, hxx⟩ := ih h
          exact ⟨x, by simp [hx], hxx⟩

theorem runHandlers_log_count_zero (hs : List Handler) (u : Nat)
    (h : u ∉ hs.map Handler.uid) : (runHandlers hs).2.count u = 0 := by
  rw [List.count_eq_zero]
  intro hmem
  obtain ⟨x, hx, hxu, _⟩ := runHandlers_log_mem hs u hmem
  exact h (by rw [List.mem_map]; exact ⟨x, hx, hxu⟩)

theorem runHandlers_count (hs : List Handler) (hnd : (hs.map Handler.uid).Nodup)
    (x : Handler) (hmem : x ∈ hs) :
    (runHandlers hs).2.count x.uid = if x.active then 0 else 1 := by
  induction hs with
  | nil => simp at hmem
  | cons a rest ih =>
    have hnd2 : (rest.map Handler.uid).Nodup := by
      rw [List.map_cons] at hnd
      exact hnd.of_cons
    have hanotin : a.uid ∉ rest.map Handler.uid := by
      rw [List.map_cons] at hnd
      exact (List.nodup_cons.mp hnd).1
    rw [runHandlers_cons]
    rcases List.mem_cons.mp hmem with hx | hx
    · subst hx
      have hcnt0 : (runHandlers rest).2.count x.uid = 0 :=
        runHandlers_log_count_zero rest x.uid hanotin
      cases hac : x.active <;> cases hr : x.remove <;>
        simp [hac, hr, List.count_cons, hcnt0]
    · have hxne : x.uid ≠ a.uid := by
        intro hcon
        exact hanotin (by rw [← hcon, List.mem_map]; exact ⟨x, hx, rfl⟩)
      have := ih hnd2 hx
      cases hac : a.active <;> cases hr : a.remove <;>
        simp [hac, hr, List.count_cons, this, Ne.symm hxne, hxne]

theorem runHandlers_keep (hs : List Handler) (x : Handler) (hmem : x ∈ hs)
    (h : x.active = true ∨ x.remove = false) : x ∈ (runHandlers hs).1 := by
  induction hs with
  | nil => simp at hmem
  | cons a rest ih =>
    rw [runHandlers_cons]
    rcases List.mem_cons.mp hmem with hx | hx
    · subst hx
      rcases h with h | h
      · simp [h]
      · cases hac : x.active <;> simp [hac, h]
    · cases hac : a.active <;> cases hr : a.remove <;> simp [hac, hr, ih hx]

theorem runHandlers_not_mem (hs : List Handler) (x : Handler)
    (hac : x.active = false) (hr : x.remove = true) : x ∉ (runHandlers hs).1 := by
  induction hs with
  | nil => simp [runHandlers]
  | cons a rest ih =>
    rw [runHandlers_cons]
    intro hmem
    cases hbc : a.active <;> cases hbr : a.remove <;>
      rw [hbc] at hmem <;> rw [hbr] at hmem <;> simp at hmem
    · rcases hmem with he | he
      · rw [he] at hr
        rw [hbr] at hr
        cases hr
      · exact ih he
    · exact ih hmem
    · rcases hmem with he | he
      · rw [he] at hac
        rw [hbc] at hac
        cases hac
      · exact ih he
    · rcases hmem with he | he
      · rw [he] at hac
        rw [hbc] at hac
        cases hac
      · exact ih he

theorem runHandlers_drop (hs : List Handler) (hnd : (hs.map Handler.uid).Nodup)
    (x : Handler) (hmem : x ∈ hs) (hac : x.active = false) (hr : x.remove = true) :
    ∀ y ∈ (runHandlers hs).1, y.uid ≠ x.uid := by
  intro y hy hcon
  have hyhs : y ∈ hs := runHandlers_mem_fst hs y hy
  have hxy : y = x := List.inj_on_of_nodup_map hnd hyhs hmem hcon
  rw [hxy] at hy
  exact runHandlers_not_mem hs x hac hr hy

theorem lookupEv_cons_eq (e : Nat) (l : List Handler) (rest : List (Nat × List Handler))
    (ev : Nat) (he : e = ev) : lookupEv ((e, l) :: rest) ev = some l := by
  simp [lookupEv, List.find?_cons, he]

theorem lookupEv_cons_ne (e : Nat) (l : List Handler) (rest : List (Nat × List Handler))
    (ev : Nat) (he : ¬ e = ev) : lookupEv ((e, l) :: rest) ev = lookupEv rest ev := by
  simp [lookupEv, List.find?_cons, he]

theorem setEv_cons_eq (e : Nat) (l : List Handler) (rest : List (Nat × List Handler))
    (ev : Nat) (hs : List Handler) (he : e = ev) :
    setEv ((e, l) :: rest) ev hs = (e, hs) :: rest := by
  simp [setEv, he]

theorem setEv_cons_ne (e : Nat) (l : List Handler) (rest : List (Nat × List Handler))
    (ev : Nat) (hs : List Handler) (he : ¬ e = ev) :
    setEv ((e, l) :: rest) ev hs = (e, l) :: setEv rest ev hs := by
  simp [setEv, he]

theorem lookupEv_setEv_self (es : List (Nat × List Handler)) (ev : Nat) (hs : List Handler) :
    lookupEv (setEv es ev hs) ev = some hs := by
  induction es with
  | nil => simp [setEv, lookupEv]
  | cons p rest ih =>
    obtain ⟨e, l⟩ := p
    by_cases he : e = ev
    · rw [setEv_cons_eq e l rest ev hs he, lookupEv_cons_eq e hs rest ev he]
    · rw [setEv_cons_ne e l rest ev hs he, lookupEv_cons_ne e l _ ev he]
      exact ih

theorem lookupEv_setEv_other (es : List (Nat × List Handler)) (ev : Nat) (hs : List Handler)
    (ev' : Nat) (hne : ev' ≠ ev) :
    lookupEv (setEv es ev hs) ev' = lookupEv es ev' := by
  induction es with
  | nil => simp [setEv, lookupEv, Ne.symm hne]
  | cons p rest ih =>
    obtain ⟨e, l⟩ := p
    by_cases he : e = ev
    · rw [setEv_cons_eq e l rest ev hs he]
      have hne2 : ¬ e = ev' := by
        rw [he]
        exact Ne.symm hne
      rw [lookupEv_cons_ne e hs rest ev' hne2, lookupEv_cons_ne e l rest ev' hne2]
    · rw [setEv_cons_ne e l rest ev hs he]
      by_cases he2 : e = ev'
      · rw [lookupEv_cons_eq e l _ ev' he2, lookupEv_cons_eq e l rest ev' he2]
      · rw [lookupEv_cons_ne e l _ ev' he2, lookupEv_cons_ne e l rest ev' he2]
        exact ih

theorem mem_setEv (es : List (Nat × List Handler)) (ev : Nat) (hs : List Handler)
    (q : Nat × List Handler) (h : q ∈ setEv es ev hs) : q = (ev, hs) ∨ q ∈ es := by
  induction es with
  | nil =>
    simp [setEv] at h
    exact Or.inl h
  | cons p rest ih =>
    obtain ⟨e, l⟩ := p
    by_cases he : e = ev
    · rw [setEv_cons_eq e l rest ev hs he] at h
      rcases List.mem_cons.mp h with h1 | h1
      · left
        rw [h1, he]
      · right
        simp [h1]
    · rw [setEv_cons_ne e l rest ev hs he] at h
      rcases List.mem_cons.mp h with h1 | h1
      · right
        simp [h1]
      · rcases ih h1 with h2 | h2
        · exact Or.inl h2
        · right
          simp [h2]

theorem setEv_self_mem (es : List (Nat × List Handler)) (ev : Nat) (hs : List Handler) :
    (ev, hs) ∈ setEv es ev hs := by
  induction es with
  | nil => simp [setEv]
  | cons p rest ih =>
    obtain ⟨e, l⟩ := p
    by_cases he : e = ev
    · rw [setEv_cons_eq e l rest ev hs he]
      simp [he]
    · rw [setEv_cons_ne e l rest ev hs he]
      exact List.mem_cons.mpr (Or.inr ih)

theorem lookupEv_none (es : List (Nat × List Handler)) (ev : Nat) :
    lookupEv es ev = none ↔ ∀ p ∈ es, p.1 ≠ ev := by
  simp [lookupEv, List.find?_eq_none]

theorem setEv_append (es : List (Nat × List Handler)) (ev : Nat) (hs : List Handler)
    (h : lookupEv es ev = none) : setEv es ev hs = es ++ [(ev, hs)] := by
  induction es with
  | nil => rfl
  | cons p rest ih =>
    obtain ⟨e, l⟩ := p
    rw [lookupEv_none] at h
    have he : e ≠ ev := h (e, l) (by simp)
    have hrest : lookupEv rest ev = none := by
      rw [lookupEv_none]
      intro p hp
      exact h p (by simp [hp])
    rw [setEv_cons_ne e l rest ev hs he, ih hrest]
    rfl

theorem setEv_decomp (es : List (Nat × List Handler)) (ev : Nat) (hs : List Handler)
    (h : lookupEv es ev = some hs) :
    ∃ es1 es2, es = es1 ++ (ev, hs) :: es2 ∧ (∀ p ∈ es1, p.1 ≠ ev)
      ∧ ∀ hs', setEv es ev hs' = es1 ++ (ev, hs') :: es2 := by
  induction es with
  | nil => simp [lookupEv] at h
  | cons p rest ih =>
    obtain ⟨e, l⟩ := p
    by_cases he : e = ev
    · rw [lookupEv_cons_eq e l rest ev he] at h
      have hls : l = hs := by
        injection h
      subst hls
      refine ⟨[], rest, by simp [he], by simp, ?_⟩
      intro hs'
      rw [setEv_cons_eq e l rest ev hs' he, he]
      rfl
    · rw [lookupEv_cons_ne e l rest ev he] at h
      obtain ⟨es1, es2, h1, h2, h3⟩ := ih h
      refine ⟨(e, l) :: es1, es2, by simp [h1], ?_, ?_⟩
      · intro p hp
        rcases List.mem_cons.mp hp with hp | hp
        · rw [hp]
          exact he
        · exact h2 p hp
      · intro hs'
        rw [setEv_cons_ne e l rest ev hs' he, h3 hs']
        rfl

theorem delEv_of_decomp (es1 es2 : List (Nat × List Handler)) (ev : Nat) (hs : List Handler)
    (h1 : ∀ p ∈ es1, p.1 ≠ ev) (h2 : ∀ p ∈ es2, p.1 ≠ ev) :
    delEv (es1 ++ (ev, hs) :: es2) ev = es1 ++ es2 := by
  unfold delEv
  rw [List.filter_append, List.filter_cons]
  have e1 : (es1.filter fun p => ¬ p.1 = ev) = es1 := by
    rw [List.filter_eq_self]
    intro p hp
    simpa using h1 p hp
  have e2 : (es2.filter fun p => ¬ p.1 = ev) = es2 := by
    rw [List.filter_eq_self]
    intro p hp
    simpa using h2 p hp
  rw [e1, e2]
  simp


theorem esUids_append (a b : List (Nat × List Handler)) :
    esUids (a ++ b) = esUids a ++ esUids b := by
  simp [esUids]

theorem esUids_cons (p : Nat × List Handler) (rest : List (Nat × List Handler)) :
    esUids (p :: rest) = p.2.map Handler.uid ++ esUids rest := by
  simp [esUids]

theorem mem_esUids (es : List (Nat × List Handler)) (u : Nat) :
    u ∈ esUids es ↔ ∃ p ∈ es, ∃ x ∈ p.2, x.uid = u := by
  simp [esUids, List.mem_flatMap, List.mem_map]

theorem lookupEv_mem (es : List (Nat × List Handler)) (ev : Nat) (hs : List Handler)
    (h : lookupEv es ev = some hs) : (ev, hs) ∈ es := by
  unfold lookupEv at h
  cases hf : es.find? (fun p => p.1 = ev) with
  | none =>
    rw [hf] at h
    cases h
  | some p =>
    rw [hf] at h
    have hp : p.1 = ev := by
      have := List.find?_some hf
      simpa using this
    have hpm : p ∈ es := List.mem_of_find?_eq_some hf
    have hp2 : p.2 = hs := by
      simpa using h
    have : p = (ev, hs) := by
      obtain ⟨a, b⟩ := p
      simp only at hp hp2
      rw [hp, hp2]
    rw [this] at hpm
    exact hpm

theorem inRegistry_iff (st : BState) (u : Nat) :
    st.inRegistry u = true ↔ u ∈ bindUids st := by
  rw [show bindUids st = esUids st.events from rfl, mem_esUids]
  simp only [BState.inRegistry, List.any_eq_true, decide_eq_true_eq]

theorem not_mem_of_lt_bound (l : List Nat) (n : Nat) (h : ∀ u ∈ l, u < n) : n ∉ l := by
  intro hmem
  exact absurd (h n hmem) (lt_irrefl n)

theorem count_eq_zero_of_lt_bound (l : List Nat) (n : Nat) (h : ∀ u ∈ l, u < n) :
    l.count n = 0 := by
  rw [List.count_eq_zero]
  exact not_mem_of_lt_bound l n h

theorem bindUids_bindEv_perm (st : BState) (ev fid : Nat) :
    (bindUids (st.bindEv ev fid)).Perm (bindUids st ++ [st.nextUid]) := by
  show (esUids (setEv st.events ev
      ((lookupEv st.events ev).getD [] ++ [⟨st.nextUid, fid, false, false⟩]))).Perm
    (esUids st.events ++ [st.nextUid])
  cases hl : lookupEv st.events ev with
  | none =>
    rw [setEv_append st.events ev _ hl, esUids_append]
    have he : esUids [(ev, (none : Option (List Handler)).getD []
        ++ [⟨st.nextUid, fid, false, false⟩])] = [st.nextUid] := by
      simp [esUids]
    rw [he]
  | some hs =>
    obtain ⟨es1, es2, hdec, h1, h3⟩ := setEv_decomp st.events ev hs hl
    rw [h3, hdec]
    rw [List.perm_iff_count]
    intro a
    simp [esUids_append, esUids_cons, List.count_append, List.count_cons]

theorem bindUids_bindOnceEv_perm (st : BState) (ev fid : Nat) :
    (bindUids (st.bindOnceEv ev fid)).Perm (bindUids st ++ [st.nextUid]) := by
  show (esUids (setEv st.events ev
      ((lookupEv st.events ev).getD [] ++ [⟨st.nextUid, fid, true, false⟩]))).Perm
    (esUids st.events ++ [st.nextUid])
  cases hl : lookupEv st.events ev with
  | none =>
    rw [setEv_append st.events ev _ hl, esUids_append]
    have he : esUids [(ev, (none : Option (List Handler)).getD []
        ++ [⟨st.nextUid, fid, true, false⟩])] = [st.nextUid] := by
      simp [esUids]
    rw [he]
  | some hs =>
    obtain ⟨es1, es2, hdec, h1, h3⟩ := setEv_decomp st.events ev hs hl
    rw [h3, hdec]
    rw [List.perm_iff_count]
    intro a
    simp [esUids_append, esUids_cons, List.count_append, List.count_cons]

theorem handler_mem_setEv_push (es : List (Nat × List Handler)) (ev : Nat) (hnew : Handler)
    (p : Nat × List Handler)
    (hp : p ∈ setEv es ev ((lookupEv es ev).getD [] ++ [hnew]))
    (x : Handler) (hx : x ∈ p.2) :
    (∃ q ∈ es, x ∈ q.2) ∨ x = hnew := by
  rcases mem_setEv es ev _ p hp with hpe | hpe
  · rw [hpe] at hx
    rcases List.mem_append.mp hx with hxo | hxo
    · cases hl : lookupEv es ev with
      | none =>
        rw [hl] at hxo
        simp at hxo
      | some hs =>
        rw [hl] at hxo
        exact Or.inl ⟨(ev, hs), lookupEv_mem es ev hs hl, hxo⟩
    · right
      simpa using hxo
  · exact Or.inl ⟨p, hpe, hx⟩

theorem keysNodup_setEv (es : List (Nat × List Handler)) (ev : Nat) (L : List Handler)
    (hk : (es.map Prod.fst).Nodup) : ((setEv es ev L).map Prod.fst).Nodup := by
  cases hl : lookupEv es ev with
  | none =>
    rw [setEv_append es ev L hl, List.map_append, List.nodup_append]
    refine ⟨hk, by simp, ?_⟩
    intro a ha hb
    simp only [List.map_cons, List.map_nil, List.mem_singleton] at hb
    rw [hb] at ha
    rw [List.mem_map] at ha
    obtain ⟨p, hp, hpa⟩ := ha
    exact ((lookupEv_none es ev).mp hl p hp) hpa
  | some hs =>
    obtain ⟨es1, es2, hdec, h1, h3⟩ := setEv_decomp es ev hs hl
    rw [h3 L]
    have he : ((es1 ++ (ev, L) :: es2).map Prod.fst)
        = ((es1 ++ (ev, hs) :: es2).map Prod.fst) := by
      simp
    rw [he, ← hdec]
    exact hk

theorem binv_init : BInv BState.init := by
  refine ⟨?_, ?_, ?_, ?_, ?_, ?_, ?_, ?_, ?_⟩ <;>
    simp [BState.init, bindUids, esUids, BState.inRegistry]

theorem binv_bindEv (st : BState) (ev fid : Nat) (I : BInv st) :
    BInv (st.bindEv ev fid) := by
  have hperm := bindUids_bindEv_perm st ev fid
  refine ⟨?_, ?_, ?_, ?_, ?_, ?_, ?_, ?_, ?_⟩
  · intro p hp x hx
    rcases handler_mem_setEv_push st.events ev _ p hp x hx with ⟨q, hq, hxq⟩ | he
    · exact I.inact q hq x hxq
    · rw [he]
  · intro u hu
    rw [hperm.mem_iff] at hu
    show u < st.nextUid + 1
    rcases List.mem_append.mp hu with h | h
    · exact Nat.lt_succ_of_lt (I.flatLt u h)
    · simp at h
      omega
  · rw [hperm.nodup_iff, List.nodup_append]
    refine ⟨I.flatNodup, by simp, ?_⟩
    intro a ha hb
    simp only [List.mem_singleton] at hb
    rw [hb] at ha
    exact absurd (I.flatLt _ ha) (lt_irrefl _)
  · exact keysNodup_setEv st.events ev _ I.keysNodup
  · intro u hu
    exact Nat.lt_succ_of_lt (I.oneLt u hu)
  · intro u hu
    exact Nat.lt_succ_of_lt (I.logLt u hu)
  · exact I.oneCount
  · intro u hu hreg
    rw [inRegistry_iff, hperm.mem_iff] at hreg
    rcases List.mem_append.mp hreg with h | h
    · exact I.oneReg u hu ((inRegistry_iff st u).mpr h)
    · simp only [List.mem_singleton] at h
      have := I.oneLt u hu
      omega
  · intro p hp x hx
    rcases handler_mem_setEv_push st.events ev _ p hp x hx with ⟨q, hq, hxq⟩ | he
    · exact I.remIff q hq x hxq
    · rw [he]
      show false = true ↔ st.nextUid ∈ st.oneShots
      constructor
      · intro hcon
        cases hcon
      · intro hcon
        exact absurd (I.oneLt _ hcon) (lt_irrefl _)

theorem binv_bindOnceEv (st : BState) (ev fid : Nat) (I : BInv st) :
    BInv (st.bindOnceEv ev fid) := by
  have hperm := bindUids_bindOnceEv_perm st ev fid
  refine ⟨?_, ?_, ?_, ?_, ?_, ?_, ?_, ?_, ?_⟩
  · intro p hp x hx
    rcases handler_mem_setEv_push st.events ev _ p hp x hx with ⟨q, hq, hxq⟩ | he
    · exact I.inact q hq x hxq
    · rw [he]
  · intro u hu
    rw [hperm.mem_iff] at hu
    show u < st.nextUid + 1
    rcases List.mem_append.mp hu with h | h
    · exact Nat.lt_succ_of_lt (I.flatLt u h)
    · simp at h
      omega
  · rw [hperm.nodup_iff, List.nodup_append]
    refine ⟨I.flatNodup, by simp, ?_⟩
    intro a ha hb
    simp only [List.mem_singleton] at hb
    rw [hb] at ha
    exact absurd (I.flatLt _ ha) (lt_irrefl _)
  · exact keysNodup_setEv st.events ev _ I.keysNodup
  · intro u hu
    show u < st.nextUid + 1
    rcases List.mem_append.mp hu with h | h
    · exact Nat.lt_succ_of_lt (I.oneLt u h)
    · simp only [List.mem_singleton] at h
      omega
  · intro u hu
    exact Nat.lt_succ_of_lt (I.logLt u hu)
  · intro u hu
    rcases List.mem_append.mp hu with h | h
    · exact I.oneCount u h
    · simp only [List.mem_singleton] at h
      rw [h]
      show List.count st.nextUid st.log ≤ 1
      rw [count_eq_zero_of_lt_bound st.log st.nextUid I.logLt]
      omega
  · intro u hu hreg
    rcases List.mem_append.mp hu with h | h
    · rw [inRegistry_iff, hperm.mem_iff] at hreg
      rcases List.mem_append.mp hreg with h2 | h2
      · exact I.oneReg u h ((inRegistry_iff st u).mpr h2)
      · simp only [List.mem_singleton] at h2
        have := I.oneLt u h
        omega
    · simp only [List.mem_singleton] at h
      rw [h]
      show List.count st.nextUid st.log = 0
      exact count_eq_zero_of_lt_bound st.log st.nextUid I.logLt
  · intro p hp x hx
    rcases handler_mem_setEv_push st.events ev _ p hp x hx with ⟨q, hq, hxq⟩ | he
    · constructor
      · intro hrem
        exact List.mem_append.mpr (Or.inl ((I.remIff q hq x hxq).mp hrem))
      · intro hmem
        rcases List.mem_append.mp hmem with h2 | h2
        · exact (I.remIff q hq x hxq).mpr h2
        · simp only [List.mem_singleton] at h2
          have hx2 : x.uid ∈ bindUids st := by
            rw [show bindUids st = esUids st.events from rfl, mem_esUids]
            exact ⟨q, hq, x, hxq, rfl⟩
          have := I.flatLt _ hx2
          omega
    · rw [he]
      show true = true ↔ st.nextUid ∈ st.oneShots ++ [st.nextUid]
      simp

theorem keys_decomp_no_ev (es es1 es2 : List (Nat × List Handler)) (ev : Nat)
    (hs : List Handler) (hdec : es = es1 ++ (ev, hs) :: es2)
    (hk : (es.map Prod.fst).Nodup) : ∀ p ∈ es2, p.1 ≠ ev := by
  rw [hdec, List.map_append, List.map_cons] at hk
  have h2 := (List.nodup_append.mp hk).2
  have h3 := List.nodup_cons.mp h2.1
  intro p hp hpe
  exact h3.1 (by rw [← hpe, List.mem_map]; exact ⟨p, hp, rfl⟩)

theorem binv_triggerEv (st : BState) (ev : Nat) (I : BInv st) :
    BInv (st.triggerEv ev) := by
  cases hl : lookupEv st.events ev with
  | none =>
    have hid : st.triggerEv ev = st := by
      unfold BState.triggerEv
      rw [hl]
    rw [hid]
    exact I
  | some hs =>
    obtain ⟨es1, es2, hdec, h1, h3⟩ := setEv_decomp st.events ev hs hl
    have h2 : ∀ p ∈ es2, p.1 ≠ ev := keys_decomp_no_ev st.events es1 es2 ev hs hdec I.keysNodup
    have hpairmem : (ev, hs) ∈ st.events := lookupEv_mem st.events ev hs hl
    have hinact : ∀ x ∈ hs, x.active = false := fun x hx => I.inact (ev, hs) hpairmem x hx
    have hrw := runHandlers_eq hs hinact
    have hst : st.triggerEv ev = ⟨(if (hs.filter (fun x => !x.remove)).isEmpty
          then delEv st.events ev
          else setEv st.events ev (hs.filter (fun x => !x.remove))),
        st.nextUid, st.oneShots, st.log ++ hs.map Handler.uid⟩ := by
      unfold BState.triggerEv
      rw [hl]
      simp only [hrw]
    have hev : (st.triggerEv ev).events =
        if (hs.filter (fun x => !x.remove)).isEmpty then es1 ++ es2
        else es1 ++ (ev, hs.filter (fun x => !x.remove)) :: es2 := by
      rw [hst]
      by_cases he : (hs.filter (fun x => !x.remove)).isEmpty
      · simp only [he, if_true]
        rw [hdec, delEv_of_decomp es1 es2 ev hs h1 h2]
      · simp only [he, Bool.false_eq_true, if_false]
        exact h3 _
    have hlog : (st.triggerEv ev).log = st.log ++ hs.map Handler.uid := by
      rw [hst]
    have hnext : (st.triggerEv ev).nextUid = st.nextUid := by
      rw [hst]
    have hones : (st.triggerEv ev).oneShots = st.oneShots := by
      rw [hst]
    have hold : esUids st.events = esUids es1 ++ hs.map Handler.uid ++ esUids es2 := by
      rw [hdec]
      simp [esUids_append, esUids_cons]
    have hesU : esUids (st.triggerEv ev).events =
        esUids es1 ++ (hs.filter (fun x => !x.remove)).map Handler.uid ++ esUids es2 := by
      rw [hev]
      by_cases he : (hs.filter (fun x => !x.remove)).isEmpty
      · have hFnil : hs.filter (fun x => !x.remove) = [] := List.isEmpty_iff.mp he
        simp [he, hFnil, esUids_append]
      · simp [he, esUids_append, esUids_cons]
    have hFsub : ((hs.filter (fun x => !x.remove)).map Handler.uid).Sublist
        (hs.map Handler.uid) := (List.filter_sublist hs).map Handler.uid
    have hsubl : (esUids (st.triggerEv ev).events).Sublist (esUids st.events) := by
      rw [hesU, hold]
      exact ((List.Sublist.refl _).append hFsub).append (List.Sublist.refl _)
    have hN : (esUids es1 ++ hs.map Handler.uid ++ esUids es2).Nodup := by
      have hh := I.flatNodup
      rw [show bindUids st = esUids st.events from rfl, hold] at hh
      exact hh
    have hNparts := List.nodup_append.mp hN
    have hNparts2 := List.nodup_append.mp hNparts.1
    have hmid : (hs.map Handler.uid).Nodup := hNparts2.2.1
    have hpmem : ∀ p ∈ (st.triggerEv ev).events,
        p ∈ st.events ∨ p = (ev, hs.filter (fun x => !x.remove)) := by
      intro p hp
      rw [hev] at hp
      by_cases he : (hs.filter (fun x => !x.remove)).isEmpty
      · rw [if_pos he] at hp
        left
        rw [hdec]
        rcases List.mem_append.mp hp with h | h
        · exact List.mem_append.mpr (Or.inl h)
        · exact List.mem_append.mpr (Or.inr (List.mem_cons.mpr (Or.inr h)))
      · rw [if_neg he] at hp
        rcases List.mem_append.mp hp with h | h
        · left
          rw [hdec]
          exact List.mem_append.mpr (Or.inl h)
        · rcases List.mem_cons.mp h with h | h
          · right
            exact h
          · left
            rw [hdec]
            exact List.mem_append.mpr (Or.inr (List.mem_cons.mpr (Or.inr h)))
    refine ⟨?_, ?_, ?_, ?_, ?_, ?_, ?_, ?_, ?_⟩
    · intro p hp x hx
      rcases hpmem p hp with h | h
      · exact I.inact p h x hx
      · rw [h] at hx
        exact hinact x (List.mem_of_mem_filter hx)
    · intro u hu
      rw [show bindUids (st.triggerEv ev) = esUids (st.triggerEv ev).events from rfl] at hu
      rw [hnext]
      exact I.flatLt u (hsubl.mem hu)
    · show (esUids (st.triggerEv ev).events).Nodup
      exact hsubl.nodup I.flatNodup
    · rw [hev]
      by_cases he : (hs.filter (fun x => !x.remove)).isEmpty
      · rw [if_pos he]
        have hsub2 : ((es1 ++ es2).map Prod.fst).Sublist (st.events.map Prod.fst) := by
          rw [hdec, List.map_append, List.map_append, List.map_cons]
          exact (List.Sublist.refl _).append (List.sublist_cons_self _ _)
        exact hsub2.nodup I.keysNodup
      · rw [if_neg he]
        have he2 : ((es1 ++ (ev, hs.filter (fun x => !x.remove)) :: es2).map Prod.fst)
            = st.events.map Prod.fst := by
          rw [hdec]
          simp
        rw [he2]
        exact I.keysNodup
    · intro u hu
      rw [hones] at hu
      rw [hnext]
      exact I.oneLt u hu
    · intro u hu
      rw [hlog] at hu
      rw [hnext]
      rcases List.mem_append.mp hu with h | h
      · exact I.logLt u h
      · refine I.flatLt u ?_
        rw [show bindUids st = esUids st.events from rfl, hold]
        exact List.mem_append.mpr (Or.inl (List.mem_append.mpr (Or.inr h)))
    · intro u hu
      rw [hones] at hu
      rw [hlog, List.count_append]
      by_cases hcase : u ∈ hs.map Handler.uid
      · have hreg0 : st.inRegistry u = true := by
          rw [inRegistry_iff, show bindUids st = esUids st.events from rfl, hold]
          exact List.mem_append.mpr (Or.inl (List.mem_append.mpr (Or.inr hcase)))
        rw [I.oneReg u hu hreg0, List.count_eq_one_of_mem hmid hcase]
      · rw [List.count_eq_zero.mpr hcase]
        have := I.oneCount u hu
        omega
    · intro u hu hreg
      rw [hones] at hu
      rw [inRegistry_iff, show bindUids (st.triggerEv ev)
          = esUids (st.triggerEv ev).events from rfl, hesU] at hreg
      rw [hlog, List.count_append]
      by_cases hcase : u ∈ hs.map Handler.uid
      · exfalso
        obtain ⟨h0, h0mem, h0uid⟩ := List.mem_map.mp hcase
        have h0rem : h0.remove = true := by
          have := (I.remIff (ev, hs) hpairmem h0 h0mem).mpr
          rw [h0uid] at this
          exact this hu
        have hnotA : u ∉ esUids es1 := by
          intro hA
          exact hNparts2.2.2 hA hcase
        have hnotB : u ∉ esUids es2 := by
          intro hB
          exact hNparts.2.2 (List.mem_append.mpr (Or.inr hcase)) hB
        have hnotF : u ∉ (hs.filter (fun x => !x.remove)).map Handler.uid := by
          intro hF
          obtain ⟨y, hy, hyu⟩ := List.mem_map.mp hF
          have hyhs : y ∈ hs := List.mem_of_mem_filter hy
          have hyx : y = h0 := by
            refine List.inj_on_of_nodup_map hmid hyhs h0mem ?_
            rw [hyu, h0uid]
          have := (List.mem_filter.mp hy).2
          rw [hyx, h0rem] at this
          simp at this
        rcases List.mem_append.mp hreg with h | h
        · rcases List.mem_append.mp h with h | h
          · exact hnotA h
          · exact hnotF h
        · exact hnotB h
      · rw [List.count_eq_zero.mpr hcase]
        have hregold : st.inRegistry u = true := by
          rw [inRegistry_iff, show bindUids st = esUids st.events from rfl, hold]
          rcases List.mem_append.mp hreg with h | h
          · rcases List.mem_append.mp h with h | h
            · exact List.mem_append.mpr (Or.inl (List.mem_append.mpr (Or.inl h)))
            · exact absurd (hFsub.mem h) hcase
          · exact List.mem_append.mpr (Or.inr h)
        rw [I.oneReg u hu hregold]
    · intro p hp x hx
      rw [hones]
      rcases hpmem p hp with h | h
      · exact I.remIff p h x hx
      · rw [h] at hx
        exact I.remIff (ev, hs) hpairmem x (List.mem_of_mem_filter hx)

theorem binv_unbindEv (st : BState) (ev fid : Nat) (I : BInv st) :
    BInv (st.unbindEv ev fid) := by
  cases hl : lookupEv st.events ev with
  | none =>
    have hid : st.unbindEv ev fid = st := by
      unfold BState.unbindEv
      rw [hl]
    rw [hid]
    exact I
  | some hs =>
    obtain ⟨es1, es2, hdec, h1, h3⟩ := setEv_decomp st.events ev hs hl
    have h2 : ∀ p ∈ es2, p.1 ≠ ev := keys_decomp_no_ev st.events es1 es2 ev hs hdec I.keysNodup
    have hpairmem : (ev, hs) ∈ st.events := lookupEv_mem st.events ev hs hl
    have hst : st.unbindEv ev fid = ⟨(if (hs.filter (fun h => ¬ h.fid = fid)).isEmpty
          then delEv st.events ev
          else setEv st.events ev (hs.filter (fun h => ¬ h.fid = fid))),
        st.nextUid, st.oneShots, st.log⟩ := by
      unfold BState.unbindEv
      rw [hl]
    have hev : (st.unbindEv ev fid).events =
        if (hs.filter (fun h => ¬ h.fid = fid)).isEmpty then es1 ++ es2
        else es1 ++ (ev, hs.filter (fun h => ¬ h.fid = fid)) :: es2 := by
      rw [hst]
      by_cases he : (hs.filter (fun h => ¬ h.fid = fid)).isEmpty
      · simp only [he, if_true]
        rw [hdec, delEv_of_decomp es1 es2 ev hs h1 h2]
      · simp only [he, Bool.false_eq_true, if_false]
        exact h3 _
    have hlog : (st.unbindEv ev fid).log = st.log := by
      rw [hst]
    have hnext : (st.unbindEv ev fid).nextUid = st.nextUid := by
      rw [hst]
    have hones : (st.unbindEv ev fid).oneShots = st.oneShots := by
      rw [hst]
    have hold : esUids st.events = esUids es1 ++ hs.map Handler.uid ++ esUids es2 := by
      rw [hdec]
      simp [esUids_append, esUids_cons]
    have hesU : esUids (st.unbindEv ev fid).events =
        esUids es1 ++ (hs.filter (fun h => ¬ h.fid = fid)).map Handler.uid ++ esUids es2 := by
      rw [hev]
      by_cases he : (hs.filter (fun h => ¬ h.fid = fid)).isEmpty
      · have hFnil : hs.filter (fun h => ¬ h.fid = fid) = [] := List.isEmpty_iff.mp he
        rw [if_pos he, hFnil, esUids_append]
        simp [esUids]
      · rw [if_neg he, esUids_append, esUids_cons, List.append_assoc]
    have hFsub : ((hs.filter (fun h => ¬ h.fid = fid)).map Handler.uid).Sublist
        (hs.map Handler.uid) := (List.filter_sublist hs).map Handler.uid
    have hsubl : (esUids (st.unbindEv ev fid).events).Sublist (esUids st.events) := by
      rw [hesU, hold]
      exact ((List.Sublist.refl _).append hFsub).append (List.Sublist.refl _)
    have hpmem : ∀ p ∈ (st.unbindEv ev fid).events,
        p ∈ st.events ∨ p = (ev, hs.filter (fun h => ¬ h.fid = fid)) := by
      intro p hp
      rw [hev] at hp
      by_cases he : (hs.filter (fun h => ¬ h.fid = fid)).isEmpty
      · rw [if_pos he] at hp
        left
        rw [hdec]
        rcases List.mem_append.mp hp with h | h
        · exact List.mem_append.mpr (Or.inl h)
        · exact List.mem_append.mpr (Or.inr (List.mem_cons.mpr (Or.inr h)))
      · rw [if_neg he] at hp
        rcases List.mem_append.mp hp with h | h
        · left
          rw [hdec]
          exact List.mem_append.mpr (Or.inl h)
        · rcases List.mem_cons.mp h with h | h
          · right
            exact h
          · left
            rw [hdec]
            exact List.mem_append.mpr (Or.inr (List.mem_cons.mpr (Or.inr h)))
    refine ⟨?_, ?_, ?_, ?_, ?_, ?_, ?_, ?_, ?_⟩
    · intro p hp x hx
      rcases hpmem p hp with h | h
      · exact I.inact p h x hx
      · rw [h] at hx
        exact I.inact (ev, hs) hpairmem x (List.mem_of_mem_filter hx)
    · intro u hu
      rw [show bindUids (st.unbindEv ev fid)
          = esUids (st.unbindEv ev fid).events from rfl] at hu
      rw [hnext]
      exact I.flatLt u (hsubl.mem hu)
    · show (esUids (st.unbindEv ev fid).events).Nodup
      exact hsubl.nodup I.flatNodup
    · rw [hev]
      by_cases he : (hs.filter (fun h => ¬ h.fid = fid)).isEmpty
      · rw [if_pos he]
        have hsub2 : ((es1 ++ es2).map Prod.fst).Sublist (st.events.map Prod.fst) := by
          rw [hdec, List.map_append, List.map_append, List.map_cons]
          exact (List.Sublist.refl _).append (List.sublist_cons_self _ _)
        exact hsub2.nodup I.keysNodup
      · rw [if_neg he]
        have he2 : ((es1 ++ (ev, hs.filter (fun h => ¬ h.fid = fid)) :: es2).map Prod.fst)
            = st.events.map Prod.fst := by
          rw [hdec]
          simp
        rw [he2]
        exact I.keysNodup
    · intro u hu
      rw [hones] at hu
      rw [hnext]
      exact I.oneLt u hu
    · intro u hu
      rw [hlog] at hu
      rw [hnext]
      exact I.logLt u hu
    · intro u hu
      rw [hones] at hu
      rw [hlog]
      exact I.oneCount u hu
    · intro u hu hreg
      rw [hones] at hu
      rw [inRegistry_iff] at hreg
      rw [hlog]
      refine I.oneReg u hu ?_
      rw [inRegistry_iff]
      exact hsubl.mem hreg
    · intro p hp x hx
      rw [hones]
      rcases hpmem p hp with h | h
      · exact I.remIff p h x hx
      · rw [h] at hx
        exact I.remIff (ev, hs) hpairmem x (List.mem_of_mem_filter hx)

theorem binv_stepB (st : BState) (op : BOp) (I : BInv st) : BInv (st.stepB op) := by
  cases op with
  | bindOp ev fid => exact binv_bindEv st ev fid I
  | bindOnceOp ev fid => exact binv_bindOnceEv st ev fid I
  | triggerOp ev => exact binv_triggerEv st ev I
  | unbindOp ev fid => exact binv_unbindEv st ev fid I

theorem binv_runB (ops : List BOp) (st : BState) (I : BInv st) : BInv (st.runB ops) := by
  induction ops generalizing st with
  | nil => exact I
  | cons op ops ih => exact ih (st.stepB op) (binv_stepB st op I)

theorem lookupEv_delEv (es : List (Nat × List Handler)) (ev : Nat) :
    lookupEv (delEv es ev) ev = none := by
  rw [lookupEv_none]
  intro p hp
  have := List.mem_filter.mp hp
  simpa using this.2

theorem trigger_behavior (st : BState) (ev : Nat) (hs : List Handler)
    (hl : lookupEv st.events ev = some hs) (hnd : (hs.map Handler.uid).Nodup)
    (x : Handler) (hx : x ∈ hs) :
    (x.active = false →
        (st.triggerEv ev).log.count x.uid = st.log.count x.uid + 1
        ∧ (x.remove = false → (st.triggerEv ev).inRegistry x.uid = true))
    ∧ (x.active = true →
        (st.triggerEv ev).log.count x.uid = st.log.count x.uid
        ∧ (st.triggerEv ev).inRegistry x.uid = true) := by
  have hst : st.triggerEv ev = ⟨(if (runHandlers hs).1.isEmpty
        then delEv st.events ev
        else setEv st.events ev (runHandlers hs).1),
      st.nextUid, st.oneShots, st.log ++ (runHandlers hs).2⟩ := by
    unfold BState.triggerEv
    rw [hl]
  have hcount := runHandlers_count hs hnd x hx
  have hreg : ∀ hkeep : x ∈ (runHandlers hs).1, (st.triggerEv ev).inRegistry x.uid = true := by
    intro hkeep
    have hne : (runHandlers hs).1.isEmpty = false := by
      cases hie : (runHandlers hs).1.isEmpty
      · rfl
      · rw [List.isEmpty_iff] at hie
        rw [hie] at hkeep
        simp at hkeep
    rw [inRegistry_iff, show bindUids (st.triggerEv ev)
        = esUids (st.triggerEv ev).events from rfl]
    have hev2 : (st.triggerEv ev).events = setEv st.events ev (runHandlers hs).1 := by
      rw [hst]
      simp [hne]
    rw [hev2, mem_esUids]
    exact ⟨(ev, (runHandlers hs).1), setEv_self_mem st.events ev (runHandlers hs).1,
      x, hkeep, rfl⟩
  constructor
  · intro hac
    constructor
    · rw [hst]
      show (st.log ++ (runHandlers hs).2).count x.uid = st.log.count x.uid + 1
      rw [List.count_append, hcount]
      simp [hac]
    · intro hrem
      exact hreg (runHandlers_keep hs x hx (Or.inr hrem))
  · intro hac
    constructor
    · rw [hst]
      show (st.log ++ (runHandlers hs).2).count x.uid = st.log.count x.uid
      rw [List.count_append, hcount]
      simp [hac]
    · exact hreg (runHandlers_keep hs x hx (Or.inl hac))

theorem unbind_removes_fid (st : BState) (ev fid : Nat) (hs' : List Handler)
    (h : lookupEv (st.unbindEv ev fid).events ev = some hs') :
    ∀ x ∈ hs', ¬ x.fid = fid := by
  cases hl : lookupEv st.events ev with
  | none =>
    have hid : st.unbindEv ev fid = st := by
      unfold BState.unbindEv
      rw [hl]
    rw [hid, hl] at h
    cases h
  | some hs =>
    have hst : (st.unbindEv ev fid).events =
        if (hs.filter (fun x => ¬ x.fid = fid)).isEmpty
        then delEv st.events ev
        else setEv st.events ev (hs.filter (fun x => ¬ x.fid = fid)) := by
      unfold BState.unbindEv
      rw [hl]
    by_cases he : (hs.filter (fun x => ¬ x.fid = fid)).isEmpty
    · rw [hst, if_pos he, lookupEv_delEv] at h
      cases h
    · rw [hst, if_neg he, lookupEv_setEv_self] at h
      have hh : hs' = hs.filter (fun x => ¬ x.fid = fid) := by
        injection h.symm
      intro x hxm
      rw [hh] at hxm
      have := (List.mem_filter.mp hxm).2
      simpa using this

/-- Claim C5: (1) along every external bind/bind_once/trigger/unbind
sequence, a one-shot handler is invoked at most once, and once invoked it
is absent from the registry; (2) from any registry state, one `trigger` of
an event invokes each currently inactive registered handler exactly once —
keeping persistent ones registered — and skips (without unregistering) any
handler whose re-entrancy flag is set, as happens when `trigger` recurses
into the same event; (3) `unbind` removes every handler with the given
function identity from the event. -/
theorem c5_event_bus :
    (∀ ops : List BOp, ∀ u ∈ (BState.init.runB ops).oneShots,
      (BState.init.runB ops).log.count u ≤ 1
      ∧ ((BState.init.runB ops).inRegistry u = true
          → (BState.init.runB ops).log.count u = 0))
    ∧ (∀ (st : BState) (ev : Nat) (hs : List Handler),
        lookupEv st.events ev = some hs → (hs.map Handler.uid).Nodup →
        ∀ x ∈ hs,
          (x.active = false →
            (st.triggerEv ev).log.count x.uid = st.log.count x.uid + 1
            ∧ (x.remove = false → (st.triggerEv ev).inRegistry x.uid = true))
          ∧ (x.active = true →
            (st.triggerEv ev).log.count x.uid = st.log.count x.uid
            ∧ (st.triggerEv ev).inRegistry x.uid = true))
    ∧ (∀ (st : BState) (ev fid : Nat) (hs' : List Handler),
        lookupEv (st.unbindEv ev fid).events ev = some hs' →
        ∀ x ∈ hs', ¬ x.fid = fid) := by
  refine ⟨?_, ?_, ?_⟩
  · intro ops u hu
    have I := binv_runB ops BState.init binv_init
    exact ⟨I.oneCount u hu, I.oneReg u hu⟩
  · intro st ev hs hl hnd x hx
    exact trigger_behavior st ev hs hl hnd x hx
  · intro st ev fid hs' h
    exact unbind_removes_fid st ev fid hs' h

/-- Witness for C5: a one-shot handler bound and triggered twice fires
once and is gone; a persistent handler in a singleton registry is invoked
exactly once by a trigger and stays registered. -/
theorem c5_event_bus_witness :
    ((BState.init.runB [.bindOnceOp 0 7, .triggerOp 0, .triggerOp 0]).log.count 0 ≤ 1
      ∧ ((BState.init.runB [.bindOnceOp 0 7, .triggerOp 0, .triggerOp 0]).inRegistry 0 = true
          → (BState.init.runB [.bindOnceOp 0 7, .triggerOp 0, .triggerOp 0]).log.count 0 = 0))
    ∧ ((⟨[(3, [⟨5, 9, false, false⟩])], 6, [], []⟩ : BState).triggerEv 3).log.count 5
        = ([] : List Nat).count 5 + 1 :=
  ⟨c5_event_bus.1 [.bindOnceOp 0 7, .triggerOp 0, .triggerOp 0] 0 (by decide),
   ((c5_event_bus.2.1 ⟨[(3, [⟨5, 9, false, false⟩])], 6, [], []⟩ 3 [⟨5, 9, false, false⟩]
      (by decide) (by decide) ⟨5, 9, false, false⟩ (by decide)).1 (by decide)).1⟩
